import Mathlib

/-!
Verification of the dependency-aware job queue of osbuild-composer.

The repository ships, under src/internal/jobqueue/jobqueue.go, the public
interface of the queue (Enqueue, Dequeue, FinishJob, CancelJob, JobStatus,
JobArgs) together with the three exported error sentinels; the concrete
implementation behind the interface is not part of the source tree, so the
operations below are modelled from the specification document, faithful to
its words (sections 3, 4 and 8 of the spec). The error sentinels are
embedded directly from the source.
-/

namespace JobQueueModel


/-- Opaque serialized payload bytes (args and results are opaque byte
sequences per the spec, section 3). -/
abbrev Bytes := List Nat

/-- Modelled from the spec: the Job entity of section 3 — type tag, opaque
args, dependency list, the three timestamps (zero meaning "not yet
reached"), the cancellation flag, and the result recorded at finish. -/
structure Job where
  jobType : String
  args : Bytes
  deps : List Nat
  queuedAt : Nat
  startedAt : Nat
  finishedAt : Nat
  canceled : Bool
  result : Option Bytes
deriving Repr, DecidableEq

/-- Modelled from the spec: the job store — the authoritative state: the
job records keyed by id, the id counter of the identifier service, and the
clock from which timestamps are drawn. -/
structure Queue where
  jobs : List (Nat × Job)
  nextId : Nat
  clock : Nat
deriving Repr, DecidableEq

def emptyQueue : Queue := ⟨[], 0, 0⟩

/-- Look a job up by id in the store. -/
def lookupJob (q : Queue) (i : Nat) : Option Job :=
  match q.jobs.find? (fun p => p.1 == i) with
  | some p => some p.2
  | none => none

/-- Rewrite every job record in place, keeping keys. -/
def mapJobs (q : Queue) (f : Nat → Job → Job) : Queue :=
  { q with jobs := q.jobs.map (fun p => (p.1, f p.1 p.2)) }

/-- Replace the record of job `i`. -/
def setJob (q : Queue) (i : Nat) (j : Job) : Queue :=
  mapJobs q (fun k jk => if k = i then j else jk)

/-- Modelled from the spec: the five error kinds surfaced to callers
(section 6): UnknownJob, UnknownDependency, BadArgs, NotRunning, Canceled.
In the source the first two share the sentinel ErrNotExist. -/
inductive QErr
  | unknownJob
  | unknownDependency
  | badArgs
  | notRunning
  | canceled
deriving Repr, DecidableEq

/-- Modelled from the spec: Submit (section 4.1). Args that do not
serialize cleanly are modelled as `none` and fail with BadArgs; every
dependency must name an existing job, else UnknownDependency; on success a
fresh id is assigned and the job is persisted with queuedAt drawn from the
clock. -/
def enqueue (q : Queue) (jobType : String) (args : Option Bytes) (deps : List Nat) :
    Except QErr (Nat × Queue) :=
  match args with
  | none => .error .badArgs
  | some bytes =>
    if deps.all (fun d => (lookupJob q d).isSome) then
      let i := q.nextId
      let now := q.clock + 1
      let j : Job :=
        { jobType := jobType, args := bytes, deps := deps, queuedAt := now,
          startedAt := 0, finishedAt := 0, canceled := false, result := none }
      .ok (i, { jobs := q.jobs ++ [(i, j)], nextId := i + 1, clock := now })
    else .error .unknownDependency

/-- Modelled from the spec: a dependency is satisfied when it exists, has
finished, and is not canceled (invariant I4). -/
def depOk (q : Queue) (d : Nat) : Bool :=
  match lookupJob q d with
  | some jd => jd.finishedAt != 0 && !jd.canceled
  | none => false

/-- Modelled from the spec: invariant I4 — a job is dispatchable iff it has
not started, is not canceled, and every dependency has finished and is not
canceled. -/
def dispatchable (q : Queue) (j : Job) : Bool :=
  j.startedAt == 0 && !j.canceled && j.deps.all (depOk q)

/-- Strict FIFO priority between queue entries: earlier queuedAt first,
ties broken by id ordering (spec, section 4.1, Dequeue fairness). -/
def lexBefore (a b : Nat × Job) : Bool :=
  a.2.queuedAt < b.2.queuedAt || (a.2.queuedAt == b.2.queuedAt && a.1 < b.1)

/-- The dispatchable jobs whose type the worker accepts, in store order. -/
def candidates (q : Queue) (types : List String) : List (Nat × Job) :=
  q.jobs.filter (fun p => types.contains p.2.jobType && dispatchable q p.2)

/-- Select the FIFO-earliest entry, keeping the current best unless a
strictly earlier one appears. -/
def pickMinAux (cur : Nat × Job) : List (Nat × Job) → Nat × Job
  | [] => cur
  | p :: rest => pickMinAux (if lexBefore p cur then p else cur) rest

/-- FIFO-earliest element of a candidate list, if any. -/
def pickMin : List (Nat × Job) → Option (Nat × Job)
  | [] => none
  | p :: rest => some (pickMinAux p rest)

/-- Modelled from the spec: Dequeue (sections 4.1 and 4.4). Scans for the
FIFO-earliest dispatchable job of an accepted type; if found, atomically
marks it Running (startedAt set from the clock) and returns its id,
dependencies, type and args together with the new state; `none` models the
blocking wait when no job is dispatchable. -/
def dequeue (q : Queue) (types : List String) :
    Option (Nat × List Nat × String × Bytes × Queue) :=
  match pickMin (candidates q types) with
  | none => none
  | some (i, j) =>
    let now := q.clock + 1
    some (i, j.deps, j.jobType, j.args,
      { setJob q i { j with startedAt := now } with clock := now })

/-- Modelled from the spec: Finish (section 4.1). UnknownJob when no such
id; NotRunning when the job was never claimed (startedAt == 0) or is
already finished; otherwise records the result and sets finishedAt. -/
def finishJob (q : Queue) (i : Nat) (result : Bytes) : Except QErr Queue :=
  match lookupJob q i with
  | none => .error .unknownJob
  | some j =>
    if j.startedAt == 0 || j.finishedAt != 0 then .error .notRunning
    else
      let now := q.clock + 1
      .ok { setJob q i { j with finishedAt := now, result := some result } with clock := now }

/-- The ids of the jobs that list `i` among their dependencies (the
reverse-dependency index of spec section 4.2). -/
def directDependents (q : Queue) (i : Nat) : List Nat :=
  (q.jobs.filter (fun p => p.2.deps.contains i)).map Prod.fst

/-- One round of the cascading-cancel traversal: add every not-yet-visited,
not-yet-finished job that depends on an already-visited one (spec, section
4.3: recursion skips dependents that are already finished). -/
def cancelStepSet (q : Queue) (s : List Nat) : List Nat :=
  s ++ (q.jobs.filter (fun p =>
    p.2.finishedAt == 0 && !s.contains p.1 && p.2.deps.any (fun d => s.contains d))).map Prod.fst

/-- Iterated cascade rounds starting from the canceled job. -/
def cancelClosure (q : Queue) (i : Nat) : Nat → List Nat
  | 0 => [i]
  | n + 1 => cancelStepSet q (cancelClosure q i n)

/-- Modelled from the spec: the visited set of the depth-first
cascading-cancel traversal of section 4.3, computed as a bounded
saturation; dependency edges always go from smaller to larger ids (deps
must exist at submission), so `nextId` rounds reach every node the
traversal visits. -/
def cancelSet (q : Queue) (i : Nat) : List Nat := cancelClosure q i q.nextId

/-- Modelled from the spec: Cancel (sections 4.1 and 4.3). UnknownJob when
no such id; success with no change when the job is already finished
(cancellation after success is a no-op) or already canceled (idempotence);
otherwise sets the canceled flag on the job and on every job the cascading
traversal visits. -/
def cancelJob (q : Queue) (i : Nat) : Except QErr Queue :=
  match lookupJob q i with
  | none => .error .unknownJob
  | some j =>
    if j.finishedAt != 0 then .ok q
    else if j.canceled then .ok q
    else
      let s := cancelSet q i
      .ok (mapJobs q (fun k jk => if s.contains k then { jk with canceled := true } else jk))

/-- Modelled from the spec: Status (section 4.1) — a pure read returning
result, the three timestamps, the canceled flag and the dependency ids;
fails with UnknownJob only. -/
def jobStatus (q : Queue) (i : Nat) :
    Except QErr (Option Bytes × Nat × Nat × Nat × Bool × List Nat) :=
  match lookupJob q i with
  | none => .error .unknownJob
  | some j => .ok (j.result, j.queuedAt, j.startedAt, j.finishedAt, j.canceled, j.deps)

/-- Modelled from the spec: Args (section 4.1) — a pure read of the
immutable args blob; fails with UnknownJob only. -/
def jobArgs (q : Queue) (i : Nat) : Except QErr Bytes :=
  match lookupJob q i with
  | none => .error .unknownJob
  | some j => .ok j.args

/-- The six facade operations, as trace alphabet. -/
inductive Op
  | enq (jobType : String) (args : Option Bytes) (deps : List Nat)
  | deq (types : List String)
  | fin (i : Nat) (result : Bytes)
  | cancel (i : Nat)
  | status (i : Nat)
  | args (i : Nat)
deriving Repr, DecidableEq

/-- State transition of one facade call; failed calls leave the state
unchanged, the two reads never change it. A Dequeue that finds no
dispatchable job blocks in the source; here it leaves the state unchanged
(the caller gave up via its cancel signal). -/
def applyOp (q : Queue) (op : Op) : Queue :=
  match op with
  | .enq t a d =>
    match enqueue q t a d with
    | .ok (_, q1) => q1
    | .error _ => q
  | .deq ts =>
    match dequeue q ts with
    | some (_, _, _, _, q1) => q1
    | none => q
  | .fin i r =>
    match finishJob q i r with
    | .ok q1 => q1
    | .error _ => q
  | .cancel i =>
    match cancelJob q i with
    | .ok q1 => q1
    | .error _ => q
  | .status _ => q
  | .args _ => q

/-- Run a trace of facade calls. -/
def run (q : Queue) : List Op → Queue
  | [] => q
  | op :: ops => run (applyOp q op) ops

/-- A queue state is reachable when some trace of facade calls produces it
from the empty queue. -/
def Reachable (q : Queue) : Prop := ∃ ops : List Op, run emptyQueue ops = q

/-- The error kind, if any, a facade call surfaces to its caller. A
blocked Dequeue surfaces Canceled when its cancel signal fires (spec,
section 4.1). -/
def opError (q : Queue) (op : Op) : Option QErr :=
  match op with
  | .enq t a d =>
    match enqueue q t a d with
    | .ok _ => none
    | .error e => some e
  | .deq ts =>
    match dequeue q ts with
    | some _ => none
    | none => some .canceled
  | .fin i r =>
    match finishJob q i r with
    | .ok _ => none
    | .error e => some e
  | .cancel i =>
    match cancelJob q i with
    | .ok _ => none
    | .error e => some e
  | .status i =>
    match jobStatus q i with
    | .ok _ => none
    | .error e => some e
  | .args i =>
    match jobArgs q i with
    | .ok _ => none
    | .error e => some e

/-- Reverse-dependency reachability: `RevReach q i k` holds when `k` is `i`
itself or a transitive dependent of `i` in the store `q`. -/
inductive RevReach (q : Queue) (i : Nat) : Nat → Prop
  | refl : RevReach q i i
  | step (k k2 : Nat) (jk : Job) : RevReach q i k → lookupJob q k2 = some jk →
      k ∈ jk.deps → RevReach q i k2

end JobQueueModel

namespace JobQueueSentinels

/-- A Go error value as produced by errors.New: distinguished by the
freshly allocated value; the three sentinels in the source carry pairwise
distinct message strings, which the embedding uses as identity. -/
structure GoError where
  msg : String
deriving Repr, DecidableEq

/-- From src/internal/jobqueue/jobqueue.go line 68. -/
def ErrNotExist : GoError := ⟨"job does not exist"⟩

/-- From src/internal/jobqueue/jobqueue.go line 69. -/
def ErrNotRunning : GoError := ⟨"job is not running"⟩

/-- From src/internal/jobqueue/jobqueue.go line 70 (message as in the
source, including its misspelling). -/
def ErrCanceled : GoError := ⟨"job ws canceled"⟩

end JobQueueSentinels

namespace JobQueueModel

section BasicLemmas

/-- Membership of the looked-up record in the store. -/
theorem lookupJob_mem {q : Queue} {i : Nat} {j : Job} (h : lookupJob q i = some j) :
    (i, j) ∈ q.jobs := by
  unfold lookupJob at h
  rcases hf : q.jobs.find? (fun p => p.1 == i) with _ | p
  · rw [hf] at h; cases h
  · rw [hf] at h
    cases h
    have hmem := List.mem_of_find?_eq_some hf
    have hkey := List.find?_some hf
    have : p.1 = i := by simpa using hkey
    rcases p with ⟨k, jk⟩
    simp only at this
    subst this
    simpa using hmem

end BasicLemmas

/-- Claim C5: cancel of an existing job that is already canceled returns
success, and cancel of an already finished job returns success and leaves
the whole queue state, hence the entire record of the job (result,
timestamps, canceled flag, dependencies), unchanged. -/
theorem cancel_noop_on_canceled_or_finished (q : Queue) (i : Nat) (j : Job)
    (hj : lookupJob q i = some j) (h : j.canceled = true ∨ j.finishedAt ≠ 0) :
    cancelJob q i = Except.ok q := by
  unfold cancelJob
  rw [hj]
  by_cases hf : j.finishedAt = 0
  · rcases h with h | h
    · simp [hf, h]
    · exact absurd hf h
  · simp [hf]

/-- Closed instance of claim C5: canceling the already-canceled job 0
succeeds and changes nothing. -/
theorem cancel_noop_on_canceled_or_finished_witness :
    cancelJob (run emptyQueue [Op.enq "t" (some [1]) [], Op.cancel 0]) 0 =
      Except.ok (run emptyQueue [Op.enq "t" (some [1]) [], Op.cancel 0]) :=
  cancel_noop_on_canceled_or_finished _ 0
    { jobType := "t", args := [1], deps := [], queuedAt := 1,
      startedAt := 0, finishedAt := 0, canceled := true, result := none }
    (by decide) (Or.inl rfl)

/-- Claim C7: Finish fails with UnknownJob when no job with the id exists,
and with NotRunning when the job was never claimed (startedAt == 0) or is
already finished; in both failure cases the state is not mutated. -/
theorem finish_error_cases (q : Queue) (i : Nat) (r : Bytes) :
    (lookupJob q i = none →
      finishJob q i r = Except.error QErr.unknownJob ∧ applyOp q (Op.fin i r) = q) ∧
    (∀ j : Job, lookupJob q i = some j → j.startedAt = 0 ∨ j.finishedAt ≠ 0 →
      finishJob q i r = Except.error QErr.notRunning ∧ applyOp q (Op.fin i r) = q) := by
  constructor
  · intro hnone
    have he : finishJob q i r = Except.error QErr.unknownJob := by
      unfold finishJob
      rw [hnone]
    refine ⟨he, ?_⟩
    simp [applyOp, he]
  · intro j hj hcase
    have he : finishJob q i r = Except.error QErr.notRunning := by
      unfold finishJob
      rw [hj]
      have : (j.startedAt == 0 || j.finishedAt != 0) = true := by
        rcases hcase with h | h
        · simp [h]
        · simp [h]
      simp [this]
    refine ⟨he, ?_⟩
    simp [applyOp, he]

/-- Closed instance of claim C7: finishing a never-claimed job fails with
NotRunning and leaves the state unchanged. -/
theorem finish_error_cases_witness :
    finishJob (run emptyQueue [Op.enq "t" (some [1]) []]) 0 [9] =
        Except.error QErr.notRunning ∧
      applyOp (run emptyQueue [Op.enq "t" (some [1]) []]) (Op.fin 0 [9]) =
        run emptyQueue [Op.enq "t" (some [1]) []] :=
  (finish_error_cases (run emptyQueue [Op.enq "t" (some [1]) []]) 0 [9]).2
    { jobType := "t", args := [1], deps := [], queuedAt := 1,
      startedAt := 0, finishedAt := 0, canceled := false, result := none }
    (by decide) (Or.inl rfl)

/-- Claim C8: Submit requires every dependency id to name an existing job;
when some dependency does not exist, it returns the UnknownDependency
error and the state is unchanged, so no job is created. -/
theorem enqueue_unknown_dependency (q : Queue) (t : String) (a : Bytes)
    (deps : List Nat) (d : Nat) (hd : d ∈ deps) (hnone : lookupJob q d = none) :
    enqueue q t (some a) deps = Except.error QErr.unknownDependency ∧
      applyOp q (Op.enq t (some a) deps) = q := by
  have hall : deps.all (fun x => (lookupJob q x).isSome) = false := by
    rw [List.all_eq_false]
    exact ⟨d, hd, by simp [hnone]⟩
  have he : enqueue q t (some a) deps = Except.error QErr.unknownDependency := by
    unfold enqueue
    simp [hall]
  refine ⟨he, ?_⟩
  simp [applyOp, he]

/-- Closed instance of claim C8: submitting with a nonexistent dependency
id fails with UnknownDependency and creates nothing. -/
theorem enqueue_unknown_dependency_witness :
    enqueue emptyQueue "t" (some [1]) [5] = Except.error QErr.unknownDependency ∧
      applyOp emptyQueue (Op.enq "t" (some [1]) [5]) = emptyQueue :=
  enqueue_unknown_dependency emptyQueue "t" [1] [5] 5 (by decide) (by decide)

/-- Claim C9: every error any of the six facade operations surfaces is one
of exactly the five kinds UnknownJob, UnknownDependency, BadArgs,
NotRunning, Canceled. -/
theorem facade_errors_five_kinds (q : Queue) (op : Op) (e : QErr)
    (h : opError q op = some e) :
    e = QErr.unknownJob ∨ e = QErr.unknownDependency ∨ e = QErr.badArgs ∨
      e = QErr.notRunning ∨ e = QErr.canceled := by
  cases e
  · exact Or.inl rfl
  · exact Or.inr (Or.inl rfl)
  · exact Or.inr (Or.inr (Or.inl rfl))
  · exact Or.inr (Or.inr (Or.inr (Or.inl rfl)))
  · exact Or.inr (Or.inr (Or.inr (Or.inr rfl)))

/-- Closed instance of claim C9: the error of a Finish on an empty queue
is among the five kinds. -/
theorem facade_errors_five_kinds_witness :
    QErr.unknownJob = QErr.unknownJob ∨ QErr.unknownJob = QErr.unknownDependency ∨
      QErr.unknownJob = QErr.badArgs ∨ QErr.unknownJob = QErr.notRunning ∨
      QErr.unknownJob = QErr.canceled :=
  facade_errors_five_kinds emptyQueue (Op.fin 0 []) QErr.unknownJob (by decide)

end JobQueueModel

namespace JobQueueSentinels

/-- Claim C10: the three exported error sentinels are pairwise distinct
values, so identity comparison of a returned error identifies the failure
cause. -/
theorem sentinels_pairwise_distinct :
    ErrNotExist ≠ ErrNotRunning ∧ ErrNotExist ≠ ErrCanceled ∧
      ErrNotRunning ≠ ErrCanceled := by
  refine ⟨?_, ?_, ?_⟩ <;> decide

end JobQueueSentinels

namespace JobQueueModel

/-- The selected entry is the current best or comes from the list. -/
theorem pickMinAux_mem (cur : Nat × Job) (l : List (Nat × Job)) :
    pickMinAux cur l ∈ cur :: l := by
  induction l generalizing cur with
  | nil => simp [pickMinAux]
  | cons p rest ih =>
    by_cases hb : lexBefore p cur
    · have he : pickMinAux cur (p :: rest) = pickMinAux p rest := by
        simp [pickMinAux, hb]
      rw [he]
      rcases List.mem_cons.mp (ih p) with h1 | h1
      · rw [h1]; simp
      · exact List.mem_cons_of_mem cur (List.mem_cons_of_mem p h1)
    · have he : pickMinAux cur (p :: rest) = pickMinAux cur rest := by
        simp [pickMinAux, hb]
      rw [he]
      rcases List.mem_cons.mp (ih cur) with h1 | h1
      · rw [h1]; simp
      · exact List.mem_cons_of_mem cur (List.mem_cons_of_mem p h1)

/-- The selected entry belongs to the candidate list. -/
theorem pickMin_mem {l : List (Nat × Job)} {p : Nat × Job} (h : pickMin l = some p) :
    p ∈ l := by
  cases l with
  | nil => cases h
  | cons x rest =>
    simp only [pickMin] at h
    cases h
    exact pickMinAux_mem x rest

/-- What a true dependency check means: the dependency exists, is
finished, and is not canceled. -/
theorem depOk_spec {q : Queue} {d : Nat} (h : depOk q d = true) :
    ∃ jd : Job, lookupJob q d = some jd ∧ jd.finishedAt ≠ 0 ∧ jd.canceled = false := by
  unfold depOk at h
  rcases hl : lookupJob q d with _ | jd
  · rw [hl] at h; cases h
  · rw [hl] at h
    simp only [Bool.and_eq_true, bne_iff_ne, ne_eq, Bool.not_eq_true'] at h
    exact ⟨jd, rfl, h.1, h.2⟩

/-- Unfolding a true dispatchability check. -/
theorem dispatchable_spec {q : Queue} {j : Job} (h : dispatchable q j = true) :
    j.startedAt = 0 ∧ j.canceled = false ∧ ∀ d ∈ j.deps, depOk q d = true := by
  unfold dispatchable at h
  simp only [Bool.and_eq_true, beq_iff_eq, Bool.not_eq_true', List.all_eq_true] at h
  exact ⟨h.1.1, h.1.2, h.2⟩

/-- Claim C1: a job handed out by Dequeue was dispatchable at that moment:
not yet started, not canceled, and every one of its dependencies is an
existing job that has finished and is not canceled; in particular no job
with a pending or canceled dependency is ever returned. -/
theorem dequeue_only_dispatchable (q : Queue) (ts : List String) (i : Nat)
    (ds : List Nat) (t : String) (a : Bytes) (q1 : Queue)
    (h : dequeue q ts = some (i, ds, t, a, q1)) :
    ∃ j : Job, (i, j) ∈ q.jobs ∧ j.deps = ds ∧ j.startedAt = 0 ∧ j.canceled = false ∧
      ∀ d ∈ ds, ∃ jd : Job, lookupJob q d = some jd ∧ jd.finishedAt ≠ 0 ∧
        jd.canceled = false := by
  unfold dequeue at h
  rcases hp : pickMin (candidates q ts) with _ | pj
  · rw [hp] at h; cases h
  · rw [hp] at h
    rcases pj with ⟨i0, j⟩
    simp only [Option.some.injEq, Prod.mk.injEq] at h
    obtain ⟨hi, hds, _, _, _⟩ := h
    subst hi
    have hmem := pickMin_mem hp
    have hf := List.mem_filter.mp hmem
    have hpred := hf.2
    simp only [Bool.and_eq_true] at hpred
    obtain ⟨-, hdisp⟩ := hpred
    obtain ⟨hst, hcan, hdeps⟩ := dispatchable_spec hdisp
    refine ⟨j, hf.1, hds, hst, hcan, ?_⟩
    intro d hd
    rw [← hds] at hd
    exact depOk_spec (hdeps d hd)

/-- Closed instance of claim C1: dequeuing from a queue where job 1
depends on the finished job 0 hands out a dispatchable job. -/
theorem dequeue_only_dispatchable_witness :
    ∃ j : Job,
      (1, j) ∈ (run emptyQueue [Op.enq "t" (some [1]) [], Op.deq ["t"],
        Op.fin 0 [7], Op.enq "t" (some [2]) [0]]).jobs ∧
      j.deps = [0] ∧ j.startedAt = 0 ∧ j.canceled = false ∧
      ∀ d ∈ [0], ∃ jd : Job,
        lookupJob (run emptyQueue [Op.enq "t" (some [1]) [], Op.deq ["t"],
          Op.fin 0 [7], Op.enq "t" (some [2]) [0]]) d = some jd ∧
        jd.finishedAt ≠ 0 ∧ jd.canceled = false :=
  dequeue_only_dispatchable _ ["t"] 1 [0] "t" [2]
    (applyOp (run emptyQueue [Op.enq "t" (some [1]) [], Op.deq ["t"],
      Op.fin 0 [7], Op.enq "t" (some [2]) [0]]) (Op.deq ["t"]))
    (by decide)

end JobQueueModel

namespace JobQueueModel

/-- Store lookup as an Option.map over find?. -/
theorem lookupJob_eq (q : Queue) (i : Nat) :
    lookupJob q i = (q.jobs.find? (fun p => p.1 == i)).map Prod.snd := by
  unfold lookupJob
  rcases hf : q.jobs.find? (fun p => p.1 == i) with _ | p <;> rw [hf] <;> rfl

/-- Rewriting records in place commutes with lookup. -/
theorem lookupJob_mapJobs (q : Queue) (f : Nat → Job → Job) (i : Nat) :
    lookupJob (mapJobs q f) i = (lookupJob q i).map (f i) := by
  rw [lookupJob_eq, lookupJob_eq]
  show ((q.jobs.map (fun p => (p.1, f p.1 p.2))).find? (fun p => p.1 == i)).map Prod.snd = _
  rw [List.find?_map]
  rcases hf : q.jobs.find? ((fun p => p.1 == i) ∘ fun p => (p.1, f p.1 p.2)) with _ | p
  · have hf2 : q.jobs.find? (fun p => p.1 == i) = none := hf
    rw [hf, hf2]
    rfl
  · have hf2 : q.jobs.find? (fun p => p.1 == i) = some p := hf
    have hkey : p.1 = i := by
      have := List.find?_some hf2
      simpa using this
    rw [hf, hf2]
    simp [hkey]

/-- Rewriting records in place keeps the key sequence. -/
theorem mapJobs_keys (q : Queue) (f : Nat → Job → Job) :
    (mapJobs q f).jobs.map Prod.fst = q.jobs.map Prod.fst := by
  unfold mapJobs
  rw [List.map_map]
  rfl

/-- Replacing the record of one id leaves other ids untouched. -/
theorem lookupJob_setJob_ne (q : Queue) (i k : Nat) (j : Job) (hk : k ≠ i) :
    lookupJob (setJob q i j) k = lookupJob q k := by
  unfold setJob
  rw [lookupJob_mapJobs]
  rcases lookupJob q k with _ | jk
  · rfl
  · simp [hk]

/-- Looking up the id whose record was replaced returns the new record. -/
theorem lookupJob_setJob_self (q : Queue) (i : Nat) (j j0 : Job)
    (h : lookupJob q i = some j0) :
    lookupJob (setJob q i j) i = some j := by
  unfold setJob
  rw [lookupJob_mapJobs, h]
  simp

/-- Looking up inside a store extended on the right still finds what the
original store finds. -/
theorem lookupJob_append_of_some {q : Queue} {i : Nat} {j : Job} (tail : List (Nat × Job))
    (h : lookupJob q i = some j) :
    lookupJob { q with jobs := q.jobs ++ tail } i = some j := by
  rw [lookupJob_eq] at h ⊢
  show ((q.jobs ++ tail).find? (fun p => p.1 == i)).map Prod.snd = some j
  rw [List.find?_append]
  rcases hf : q.jobs.find? (fun p => p.1 == i) with _ | p
  · rw [hf] at h; cases h
  · rw [hf] at h
    rw [hf]
    simpa using h

end JobQueueModel

namespace JobQueueModel

/-- List-level core of the duplicate-free lookup lemma. -/
theorem find?_key_of_mem_nodup {l : List (Nat × Job)} {i : Nat} {j : Job}
    (hnd : (l.map Prod.fst).Nodup) (hm : (i, j) ∈ l) :
    (l.find? (fun p => p.1 == i)).map Prod.snd = some j := by
  induction l with
  | nil => cases hm
  | cons p rest ih =>
    have hnd1 : (p.1 :: rest.map Prod.fst).Nodup := by simpa using hnd
    have hnd2 := List.nodup_cons.mp hnd1
    rcases List.mem_cons.mp hm with h | h
    · rw [← h]
      rw [List.find?_cons_of_pos _ (by simp)]
      rfl
    · have hi : i ∈ rest.map Prod.fst := by
        have := List.mem_map_of_mem Prod.fst h
        simpa using this
      have hne : ¬((fun x : Nat × Job => x.1 == i) p) = true := by
        intro he
        exact hnd2.1 (((beq_iff_eq).mp he) ▸ hi)
      rw [List.find?_cons_of_neg rest hne]
      exact ih hnd2.2 h

/-- With duplicate-free keys, membership determines lookup. -/
theorem lookupJob_of_mem_nodup {q : Queue} {i : Nat} {j : Job}
    (hnd : (q.jobs.map Prod.fst).Nodup) (hm : (i, j) ∈ q.jobs) :
    lookupJob q i = some j := by
  rw [lookupJob_eq]
  exact find?_key_of_mem_nodup hnd hm

/-- The well-formedness invariant every reachable queue state satisfies:
keys are below the id counter and duplicate-free, dependencies point to
strictly earlier ids, finished jobs were started, and the dependencies of
a started job are finished. -/
structure WF (q : Queue) : Prop where
  keysLt : ∀ p ∈ q.jobs, p.1 < q.nextId
  keysNodup : (q.jobs.map Prod.fst).Nodup
  depsLt : ∀ p ∈ q.jobs, ∀ d ∈ p.2.deps, d < p.1
  finStarted : ∀ p ∈ q.jobs, p.2.finishedAt ≠ 0 → p.2.startedAt ≠ 0
  startedDepsFin : ∀ p ∈ q.jobs, p.2.startedAt ≠ 0 → ∀ d ∈ p.2.deps,
    ∀ jd : Job, lookupJob q d = some jd → jd.finishedAt ≠ 0

theorem wf_empty : WF emptyQueue := by
  refine ⟨?_, ?_, ?_, ?_, ?_⟩
  · intro p hp; cases hp
  · simp [emptyQueue]
  · intro p hp; cases hp
  · intro p hp; cases hp
  · intro p hp; cases hp

end JobQueueModel

namespace JobQueueModel

/-- The record a successful submission stores. -/
def freshJob (q : Queue) (t : String) (bytes : Bytes) (deps : List Nat) : Job :=
  { jobType := t, args := bytes, deps := deps, queuedAt := q.clock + 1,
    startedAt := 0, finishedAt := 0, canceled := false, result := none }

/-- Inversion of a successful submission. -/
theorem enqueue_ok_inv {q : Queue} {t : String} {a : Option Bytes} {deps : List Nat}
    {i : Nat} {q1 : Queue} (h : enqueue q t a deps = Except.ok (i, q1)) :
    ∃ bytes : Bytes, a = some bytes ∧
      deps.all (fun d => (lookupJob q d).isSome) = true ∧ i = q.nextId ∧
      q1 = { jobs := q.jobs ++ [(q.nextId, freshJob q t bytes deps)],
             nextId := q.nextId + 1, clock := q.clock + 1 } := by
  rcases a with _ | bytes
  · exact absurd h (by unfold enqueue; intro hx; cases hx)
  · unfold enqueue at h
    dsimp only at h
    by_cases hall : deps.all (fun d => (lookupJob q d).isSome) = true
    · rw [if_pos hall] at h
      simp only [Except.ok.injEq, Prod.mk.injEq] at h
      exact ⟨bytes, rfl, hall, h.1.symm, h.2.symm⟩
    · rw [if_neg hall] at h
      cases h

/-- Inversion of a successful claim. -/
theorem dequeue_ok_inv {q : Queue} {ts : List String} {i : Nat} {ds : List Nat}
    {t : String} {a : Bytes} {q1 : Queue}
    (h : dequeue q ts = some (i, ds, t, a, q1)) :
    ∃ j : Job, pickMin (candidates q ts) = some (i, j) ∧ ds = j.deps ∧
      t = j.jobType ∧ a = j.args ∧
      q1 = { setJob q i { j with startedAt := q.clock + 1 } with clock := q.clock + 1 } := by
  unfold dequeue at h
  rcases hp : pickMin (candidates q ts) with _ | pj
  · rw [hp] at h; cases h
  · rw [hp] at h
    rcases pj with ⟨i0, j⟩
    simp only [Option.some.injEq, Prod.mk.injEq] at h
    obtain ⟨hi, hds, ht, ha, hq⟩ := h
    subst hi
    exact ⟨j, rfl, hds.symm, ht.symm, ha.symm, hq.symm⟩

/-- Inversion of a successful finish. -/
theorem finish_ok_inv {q : Queue} {i : Nat} {r : Bytes} {q1 : Queue}
    (h : finishJob q i r = Except.ok q1) :
    ∃ j : Job, lookupJob q i = some j ∧ j.startedAt ≠ 0 ∧ j.finishedAt = 0 ∧
      q1 = { setJob q i { j with finishedAt := q.clock + 1, result := some r }
             with clock := q.clock + 1 } := by
  unfold finishJob at h
  rcases hj : lookupJob q i with _ | j
  · rw [hj] at h; cases h
  · rw [hj] at h
    dsimp only at h
    by_cases hg : (j.startedAt == 0 || j.finishedAt != 0) = true
    · rw [if_pos hg] at h; cases h
    · rw [if_neg hg] at h
      simp only [Except.ok.injEq] at h
      simp only [Bool.or_eq_true, beq_iff_eq, bne_iff_ne, ne_eq, not_or, not_not] at hg
      exact ⟨j, rfl, hg.1, hg.2, h.symm⟩

/-- The state a cascading cancel produces. -/
def cancelApply (q : Queue) (i : Nat) : Queue :=
  mapJobs q (fun k jk =>
    if (cancelSet q i).contains k then { jk with canceled := true } else jk)

/-- Inversion of a successful cancel: either the job was finished or
already canceled and nothing changed, or the cascade ran. -/
theorem cancel_ok_inv {q : Queue} {i : Nat} {q1 : Queue}
    (h : cancelJob q i = Except.ok q1) :
    ∃ j : Job, lookupJob q i = some j ∧
      (((j.finishedAt ≠ 0 ∨ j.canceled = true) ∧ q1 = q) ∨
        (j.finishedAt = 0 ∧ j.canceled = false ∧ q1 = cancelApply q i)) := by
  unfold cancelJob at h
  rcases hj : lookupJob q i with _ | j
  · rw [hj] at h; cases h
  · rw [hj] at h
    dsimp only at h
    by_cases hf : (j.finishedAt != 0) = true
    · rw [if_pos hf] at h
      simp only [Except.ok.injEq] at h
      exact ⟨j, rfl, Or.inl ⟨Or.inl (by simpa using hf), h.symm⟩⟩
    · rw [if_neg hf] at h
      by_cases hc : j.canceled = true
      · rw [if_pos hc] at h
        simp only [Except.ok.injEq] at h
        exact ⟨j, rfl, Or.inl ⟨Or.inr hc, h.symm⟩⟩
      · rw [if_neg hc] at h
        simp only [Except.ok.injEq] at h
        refine ⟨j, rfl, Or.inr ⟨by simpa using hf, by simpa using hc, ?_⟩⟩
        rw [← h]
        rfl

end JobQueueModel

namespace JobQueueModel

/-- Lookup only depends on the jobs list. -/
theorem lookupJob_congr_jobs {q q2 : Queue} (h : q2.jobs = q.jobs) (k : Nat) :
    lookupJob q2 k = lookupJob q k := by
  rw [lookupJob_eq, lookupJob_eq, h]

/-- Lookup in a store extended on the right. -/
theorem lookupJob_append (q : Queue) (tail : List (Nat × Job)) (k : Nat) :
    lookupJob { q with jobs := q.jobs ++ tail } k =
      (lookupJob q k).or ((tail.find? (fun p => p.1 == k)).map Prod.snd) := by
  rw [lookupJob_eq]
  show ((q.jobs ++ tail).find? (fun p => p.1 == k)).map Prod.snd = _
  rw [List.find?_append, lookupJob_eq]
  generalize q.jobs.find? (fun p => p.1 == k) = o
  cases o <;> rfl

/-- Well-formedness survives a successful submission. -/
theorem wf_enqueue {q : Queue} {t : String} {a : Option Bytes} {deps : List Nat}
    {i : Nat} {q1 : Queue} (hw : WF q) (h : enqueue q t a deps = Except.ok (i, q1)) :
    WF q1 := by
  obtain ⟨bytes, ha, hall, hi, hq1⟩ := enqueue_ok_inv h
  subst hq1
  have hlk : ∀ k : Nat,
      lookupJob ⟨q.jobs ++ [(q.nextId, freshJob q t bytes deps)], q.nextId + 1, q.clock + 1⟩ k =
        (lookupJob q k).or ((([(q.nextId, freshJob q t bytes deps)] :
          List (Nat × Job)).find? (fun p => p.1 == k)).map Prod.snd) := by
    intro k
    exact lookupJob_append q [(q.nextId, freshJob q t bytes deps)] k
  refine ⟨?_, ?_, ?_, ?_, ?_⟩
  · intro p hp
    rcases List.mem_append.mp hp with hp | hp
    · exact Nat.lt_succ_of_lt (hw.keysLt p hp)
    · have hp2 : p = (q.nextId, freshJob q t bytes deps) := by simpa using hp
      rw [hp2]
      exact Nat.lt_succ_self _
  · show ((q.jobs ++ [(q.nextId, freshJob q t bytes deps)]).map Prod.fst).Nodup
    rw [List.map_append]
    rw [List.nodup_append]
    refine ⟨hw.keysNodup, by simp, ?_⟩
    intro x hx hxn
    have hxn2 : x = q.nextId := by simpa using hxn
    rcases List.mem_map.mp hx with ⟨p, hp, hpx⟩
    have := hw.keysLt p hp
    rw [hpx, hxn2] at this
    exact absurd this (Nat.lt_irrefl _)
  · intro p hp d hd
    rcases List.mem_append.mp hp with hp | hp
    · exact hw.depsLt p hp d hd
    · have hp2 : p = (q.nextId, freshJob q t bytes deps) := by simpa using hp
      subst hp2
      have hd2 : d ∈ deps := by simpa [freshJob] using hd
      have hsome := List.all_eq_true.mp hall d hd2
      rcases Option.isSome_iff_exists.mp (by simpa using hsome) with ⟨jd, hjd⟩
      exact hw.keysLt _ (lookupJob_mem hjd)
  · intro p hp hf
    rcases List.mem_append.mp hp with hp | hp
    · exact hw.finStarted p hp hf
    · have hp2 : p = (q.nextId, freshJob q t bytes deps) := by simpa using hp
      rw [hp2] at hf
      exact absurd rfl hf
  · intro p hp hs d hd jd hjd
    rcases List.mem_append.mp hp with hp | hp
    · have hdlt : d < p.1 := hw.depsLt p hp d hd
      have hdn : (q.nextId == d) = false := by
        have hlt := hw.keysLt p hp
        have hne : q.nextId ≠ d := Nat.ne_of_gt (Nat.lt_trans hdlt hlt)
        simpa using hne
      rw [hlk d] at hjd
      have hnone : (([(q.nextId, freshJob q t bytes deps)] :
          List (Nat × Job)).find? (fun p => p.1 == d)) = none := by
        simp [List.find?, hdn]
      rw [hnone] at hjd
      simp only [Option.map_none', Option.or_none] at hjd
      exact hw.startedDepsFin p hp hs d hd jd hjd
    · have hp2 : p = (q.nextId, freshJob q t bytes deps) := by simpa using hp
      rw [hp2] at hs
      exact absurd rfl hs

end JobQueueModel

namespace JobQueueModel

/-- Well-formedness survives a successful claim. -/
theorem wf_dequeue {q : Queue} {ts : List String} {i : Nat} {ds : List Nat}
    {t : String} {a : Bytes} {q1 : Queue} (hw : WF q)
    (h : dequeue q ts = some (i, ds, t, a, q1)) : WF q1 := by
  obtain ⟨j, hp, hds, ht, ha, hq1⟩ := dequeue_ok_inv h
  have hmemc := pickMin_mem hp
  have hfm := List.mem_filter.mp hmemc
  have hmem : (i, j) ∈ q.jobs := hfm.1
  have hdisp : dispatchable q j = true := by
    have hpred := hfm.2
    simp only [Bool.and_eq_true] at hpred
    exact hpred.2
  obtain ⟨hst0, hcan0, hdeps0⟩ := dispatchable_spec hdisp
  have hlook : lookupJob q i = some j := lookupJob_of_mem_nodup hw.keysNodup hmem
  subst hq1
  have hjobs : ({ setJob q i { j with startedAt := q.clock + 1 }
      with clock := q.clock + 1 } : Queue).jobs =
      q.jobs.map (fun p => (p.1,
        if p.1 = i then { j with startedAt := q.clock + 1 } else p.2)) := rfl
  have hlkne : ∀ k : Nat, k ≠ i →
      lookupJob { setJob q i { j with startedAt := q.clock + 1 }
        with clock := q.clock + 1 } k = lookupJob q k := by
    intro k hk
    exact lookupJob_setJob_ne q i k _ hk
  have hlki : lookupJob { setJob q i { j with startedAt := q.clock + 1 }
      with clock := q.clock + 1 } i = some { j with startedAt := q.clock + 1 } := by
    exact lookupJob_setJob_self q i _ j hlook
  refine ⟨?_, ?_, ?_, ?_, ?_⟩
  · intro p2 hp2
    rw [hjobs] at hp2
    rcases List.mem_map.mp hp2 with ⟨p, hpm, hpe⟩
    rw [← hpe]
    exact hw.keysLt p hpm
  · have h2 : (q.jobs.map (fun p => (p.1,
        if p.1 = i then { j with startedAt := q.clock + 1 } else p.2))).map Prod.fst =
        q.jobs.map Prod.fst := by
      rw [List.map_map]
      rfl
    show (({ setJob q i { j with startedAt := q.clock + 1 }
      with clock := q.clock + 1 } : Queue).jobs.map Prod.fst).Nodup
    rw [hjobs, h2]
    exact hw.keysNodup
  · intro p2 hp2 d hd
    rw [hjobs] at hp2
    rcases List.mem_map.mp hp2 with ⟨p, hpm, hpe⟩
    rw [← hpe] at hd ⊢
    by_cases hpi : p.1 = i
    · rw [if_pos hpi] at hd
      have hd2 : d ∈ j.deps := hd
      rw [hpi]
      exact hw.depsLt (i, j) hmem d hd2
    · rw [if_neg hpi] at hd
      exact hw.depsLt p hpm d hd
  · intro p2 hp2 hf
    rw [hjobs] at hp2
    rcases List.mem_map.mp hp2 with ⟨p, hpm, hpe⟩
    rw [← hpe] at hf ⊢
    by_cases hpi : p.1 = i
    · rw [if_pos hpi]
      intro hx
      exact Nat.succ_ne_zero q.clock hx
    · rw [if_neg hpi] at hf ⊢
      exact hw.finStarted p hpm hf
  · intro p2 hp2 hs d hd jd hjd
    rw [hjobs] at hp2
    rcases List.mem_map.mp hp2 with ⟨p, hpm, hpe⟩
    rw [← hpe] at hs hd
    by_cases hdi : d = i
    · subst hdi
      rw [hlki] at hjd
      have hjd2 : jd = { j with startedAt := q.clock + 1 } := by
        injection hjd with hx
        exact hx.symm
      rw [hjd2]
      show j.finishedAt ≠ 0
      by_cases hpi : p.1 = d
      · rw [if_pos hpi] at hd
        have hd2 : d ∈ j.deps := hd
        have := hw.depsLt (d, j) (hpi ▸ hmem) d hd2
        exact absurd this (Nat.lt_irrefl d)
      · rw [if_neg hpi] at hs hd
        exact hw.startedDepsFin p hpm hs d hd j hlook
    · rw [hlkne d hdi] at hjd
      by_cases hpi : p.1 = i
      · rw [if_pos hpi] at hd
        have hd2 : d ∈ j.deps := hd
        rcases depOk_spec (hdeps0 d hd2) with ⟨jd0, hjd0, hfin0, -⟩
        rw [hjd0] at hjd
        injection hjd with hx
        rw [← hx]
        exact hfin0
      · rw [if_neg hpi] at hs hd
        exact hw.startedDepsFin p hpm hs d hd jd hjd

end JobQueueModel

namespace JobQueueModel

/-- Well-formedness survives a successful finish. -/
theorem wf_finish {q : Queue} {i : Nat} {r : Bytes} {q1 : Queue} (hw : WF q)
    (h : finishJob q i r = Except.ok q1) : WF q1 := by
  obtain ⟨j, hlook, hst, hfin0, hq1⟩ := finish_ok_inv h
  have hmem : (i, j) ∈ q.jobs := lookupJob_mem hlook
  subst hq1
  have hjobs : ({ setJob q i { j with finishedAt := q.clock + 1, result := some r }
      with clock := q.clock + 1 } : Queue).jobs =
      q.jobs.map (fun p => (p.1,
        if p.1 = i then { j with finishedAt := q.clock + 1, result := some r }
        else p.2)) := rfl
  have hlkne : ∀ k : Nat, k ≠ i →
      lookupJob { setJob q i { j with finishedAt := q.clock + 1, result := some r }
        with clock := q.clock + 1 } k = lookupJob q k := by
    intro k hk
    exact lookupJob_setJob_ne q i k _ hk
  have hlki : lookupJob { setJob q i { j with finishedAt := q.clock + 1, result := some r }
      with clock := q.clock + 1 } i =
      some { j with finishedAt := q.clock + 1, result := some r } := by
    exact lookupJob_setJob_self q i _ j hlook
  refine ⟨?_, ?_, ?_, ?_, ?_⟩
  · intro p2 hp2
    rw [hjobs] at hp2
    rcases List.mem_map.mp hp2 with ⟨p, hpm, hpe⟩
    rw [← hpe]
    exact hw.keysLt p hpm
  · have h2 : (q.jobs.map (fun p => (p.1,
        if p.1 = i then { j with finishedAt := q.clock + 1, result := some r }
        else p.2))).map Prod.fst = q.jobs.map Prod.fst := by
      rw [List.map_map]
      rfl
    show (({ setJob q i { j with finishedAt := q.clock + 1, result := some r }
      with clock := q.clock + 1 } : Queue).jobs.map Prod.fst).Nodup
    rw [hjobs, h2]
    exact hw.keysNodup
  · intro p2 hp2 d hd
    rw [hjobs] at hp2
    rcases List.mem_map.mp hp2 with ⟨p, hpm, hpe⟩
    rw [← hpe] at hd ⊢
    by_cases hpi : p.1 = i
    · rw [if_pos hpi] at hd
      have hd2 : d ∈ j.deps := hd
      rw [hpi]
      exact hw.depsLt (i, j) hmem d hd2
    · rw [if_neg hpi] at hd
      exact hw.depsLt p hpm d hd
  · intro p2 hp2 hf
    rw [hjobs] at hp2
    rcases List.mem_map.mp hp2 with ⟨p, hpm, hpe⟩
    rw [← hpe] at hf ⊢
    by_cases hpi : p.1 = i
    · rw [if_pos hpi]
      exact hst
    · rw [if_neg hpi] at hf ⊢
      exact hw.finStarted p hpm hf
  · intro p2 hp2 hs d hd jd hjd
    rw [hjobs] at hp2
    rcases List.mem_map.mp hp2 with ⟨p, hpm, hpe⟩
    rw [← hpe] at hs hd
    by_cases hdi : d = i
    · subst hdi
      rw [hlki] at hjd
      have hjd2 : jd = { j with finishedAt := q.clock + 1, result := some r } := by
        injection hjd with hx
        exact hx.symm
      rw [hjd2]
      exact Nat.succ_ne_zero q.clock
    · rw [hlkne d hdi] at hjd
      by_cases hpi : p.1 = i
      · rw [if_pos hpi] at hs hd
        have hd2 : d ∈ j.deps := hd
        have hs2 : j.startedAt ≠ 0 := hs
        exact hw.startedDepsFin (i, j) hmem hs2 d hd2 jd hjd
      · rw [if_neg hpi] at hs hd
        exact hw.startedDepsFin p hpm hs d hd jd hjd

/-- Well-formedness survives a cancel. -/
theorem wf_cancel {q : Queue} {i : Nat} {q1 : Queue} (hw : WF q)
    (h : cancelJob q i = Except.ok q1) : WF q1 := by
  obtain ⟨j, hlook, hcases⟩ := cancel_ok_inv h
  rcases hcases with ⟨-, hq1⟩ | ⟨hfin0, hcan0, hq1⟩
  · rw [hq1]; exact hw
  · subst hq1
    have hfields : ∀ (k : Nat) (jk : Job),
        ((if (cancelSet q i).contains k then { jk with canceled := true } else jk) :
          Job).startedAt = jk.startedAt ∧
        ((if (cancelSet q i).contains k then { jk with canceled := true } else jk) :
          Job).finishedAt = jk.finishedAt ∧
        ((if (cancelSet q i).contains k then { jk with canceled := true } else jk) :
          Job).deps = jk.deps := by
      intro k jk
      by_cases hc : ((cancelSet q i).contains k) = true
      · rw [if_pos hc]; exact ⟨rfl, rfl, rfl⟩
      · rw [if_neg hc]; exact ⟨rfl, rfl, rfl⟩
    have hjobs : (cancelApply q i).jobs = q.jobs.map (fun p => (p.1,
        if (cancelSet q i).contains p.1 then { p.2 with canceled := true } else p.2)) := rfl
    refine ⟨?_, ?_, ?_, ?_, ?_⟩
    · intro p2 hp2
      rw [hjobs] at hp2
      rcases List.mem_map.mp hp2 with ⟨p, hpm, hpe⟩
      rw [← hpe]
      exact hw.keysLt p hpm
    · have h2 : (q.jobs.map (fun p => (p.1,
          if (cancelSet q i).contains p.1 then { p.2 with canceled := true }
          else p.2))).map Prod.fst = q.jobs.map Prod.fst := by
        rw [List.map_map]
        rfl
      show ((cancelApply q i).jobs.map Prod.fst).Nodup
      rw [hjobs, h2]
      exact hw.keysNodup
    · intro p2 hp2 d hd
      rw [hjobs] at hp2
      rcases List.mem_map.mp hp2 with ⟨p, hpm, hpe⟩
      rw [← hpe] at hd ⊢
      rw [(hfields p.1 p.2).2.2] at hd
      exact hw.depsLt p hpm d hd
    · intro p2 hp2 hf
      rw [hjobs] at hp2
      rcases List.mem_map.mp hp2 with ⟨p, hpm, hpe⟩
      rw [← hpe] at hf ⊢
      rw [(hfields p.1 p.2).2.1] at hf
      rw [(hfields p.1 p.2).1]
      exact hw.finStarted p hpm hf
    · intro p2 hp2 hs d hd jd hjd
      rw [hjobs] at hp2
      rcases List.mem_map.mp hp2 with ⟨p, hpm, hpe⟩
      rw [← hpe] at hs hd
      rw [(hfields p.1 p.2).1] at hs
      rw [(hfields p.1 p.2).2.2] at hd
      have hjd2 := hjd
      rw [show lookupJob (cancelApply q i) d = (lookupJob q d).map
          (fun jk => if (cancelSet q i).contains d then { jk with canceled := true }
            else jk) from lookupJob_mapJobs q _ d] at hjd2
      rcases hl0 : lookupJob q d with _ | jd0
      · rw [hl0] at hjd2; cases hjd2
      · rw [hl0] at hjd2
        have hjdeq : jd = if (cancelSet q i).contains d then { jd0 with canceled := true }
            else jd0 := by
          injection hjd2 with hx
          exact hx.symm
        have hfin : jd.finishedAt = jd0.finishedAt := by
          rw [hjdeq]
          by_cases hc : ((cancelSet q i).contains d) = true
          · rw [if_pos hc]
          · rw [if_neg hc]
        rw [hfin]
        exact hw.startedDepsFin p hpm hs d hd jd0 hl0

end JobQueueModel

namespace JobQueueModel

/-- Well-formedness survives any facade call. -/
theorem wf_applyOp {q : Queue} (hw : WF q) (op : Op) : WF (applyOp q op) := by
  cases op with
  | enq t a d =>
    rcases he : enqueue q t a d with e | p
    · simp only [applyOp, he]
      exact hw
    · rcases p with ⟨i, q1⟩
      simp only [applyOp, he]
      exact wf_enqueue hw he
  | deq ts =>
    rcases hd : dequeue q ts with _ | r
    · simp only [applyOp, hd]
      exact hw
    · rcases r with ⟨i, ds, t, a, q1⟩
      simp only [applyOp, hd]
      exact wf_dequeue hw hd
  | fin i r =>
    rcases hf : finishJob q i r with e | q1
    · simp only [applyOp, hf]
      exact hw
    · simp only [applyOp, hf]
      exact wf_finish hw hf
  | cancel i =>
    rcases hc : cancelJob q i with e | q1
    · simp only [applyOp, hc]
      exact hw
    · simp only [applyOp, hc]
      exact wf_cancel hw hc
  | status i => exact hw
  | args i => exact hw

/-- Well-formedness survives any trace of facade calls. -/
theorem wf_run {q : Queue} (hw : WF q) (ops : List Op) : WF (run q ops) := by
  induction ops generalizing q with
  | nil => exact hw
  | cons op rest ih => exact ih (wf_applyOp hw op)

/-- Every reachable queue state is well-formed. -/
theorem reachable_wf {q : Queue} (h : Reachable q) : WF q := by
  rcases h with ⟨ops, hops⟩
  rw [← hops]
  exact wf_run wf_empty ops

/-- A started job stays present and started across one facade call. -/
theorem started_stays_applyOp {q : Queue} {i : Nat} {j : Job} (hw : WF q)
    (hl : lookupJob q i = some j) (hs : j.startedAt ≠ 0) (op : Op) :
    ∃ j2 : Job, lookupJob (applyOp q op) i = some j2 ∧ j2.startedAt ≠ 0 := by
  cases op with
  | enq t a d =>
    rcases he : enqueue q t a d with e | p
    · simp only [applyOp, he]
      exact ⟨j, hl, hs⟩
    · rcases p with ⟨i0, q1⟩
      simp only [applyOp, he]
      obtain ⟨bytes, -, -, -, hq1⟩ := enqueue_ok_inv he
      subst hq1
      exact ⟨j, lookupJob_append_of_some _ hl, hs⟩
  | deq ts =>
    rcases hd : dequeue q ts with _ | r
    · simp only [applyOp, hd]
      exact ⟨j, hl, hs⟩
    · rcases r with ⟨i0, ds, t, a, q1⟩
      simp only [applyOp, hd]
      obtain ⟨j0, hp0, -, -, -, hq1⟩ := dequeue_ok_inv hd
      by_cases hii : i = i0
      · subst hii
        have hmem0 : (i, j0) ∈ q.jobs := (List.mem_filter.mp (pickMin_mem hp0)).1
        have hdisp0 : dispatchable q j0 = true := by
          have := (List.mem_filter.mp (pickMin_mem hp0)).2
          simp only [Bool.and_eq_true] at this
          exact this.2
        have hl0 : lookupJob q i = some j0 := lookupJob_of_mem_nodup hw.keysNodup hmem0
        rw [hl] at hl0
        injection hl0 with hx
        obtain ⟨hst0, -, -⟩ := dispatchable_spec hdisp0
        rw [← hx] at hst0
        exact absurd hst0 hs
      · subst hq1
        refine ⟨j, ?_, hs⟩
        have := lookupJob_setJob_ne q i0 i { j0 with startedAt := q.clock + 1 } hii
        rw [← this] at hl
        exact hl
  | fin i0 r =>
    rcases hf : finishJob q i0 r with e | q1
    · simp only [applyOp, hf]
      exact ⟨j, hl, hs⟩
    · simp only [applyOp, hf]
      obtain ⟨j0, hl0, hst0, hfin0, hq1⟩ := finish_ok_inv hf
      by_cases hii : i = i0
      · subst hii
        rw [hl] at hl0
        injection hl0 with hx
        subst hq1
        refine ⟨{ j0 with finishedAt := q.clock + 1, result := some r }, ?_, ?_⟩
        · exact lookupJob_setJob_self q i _ j hl
        · show j0.startedAt ≠ 0
          rw [← hx]
          exact hs
      · subst hq1
        refine ⟨j, ?_, hs⟩
        have := lookupJob_setJob_ne q i0 i
          { j0 with finishedAt := q.clock + 1, result := some r } hii
        rw [← this] at hl
        exact hl
  | cancel i0 =>
    rcases hc : cancelJob q i0 with e | q1
    · simp only [applyOp, hc]
      exact ⟨j, hl, hs⟩
    · simp only [applyOp, hc]
      obtain ⟨j0, hl0, hcase⟩ := cancel_ok_inv hc
      rcases hcase with ⟨-, hq1⟩ | ⟨-, -, hq1⟩
      · subst hq1
        exact ⟨j, hl, hs⟩
      · subst hq1
        rw [show lookupJob (cancelApply q i0) i = (lookupJob q i).map
            (fun jk => if (cancelSet q i0).contains i then { jk with canceled := true }
              else jk) from lookupJob_mapJobs q _ i]
        rw [hl]
        refine ⟨_, rfl, ?_⟩
        show ((if (cancelSet q i0).contains i then { j with canceled := true }
          else j) : Job).startedAt ≠ 0
        by_cases hin : ((cancelSet q i0).contains i) = true
        · rw [if_pos hin]
          exact hs
        · rw [if_neg hin]
          exact hs
  | status i0 => exact ⟨j, hl, hs⟩
  | args i0 => exact ⟨j, hl, hs⟩

end JobQueueModel

namespace JobQueueModel

/-- A started job stays present and started across any trace. -/
theorem started_stays_run {q : Queue} {i : Nat} {j : Job} (hw : WF q)
    (hl : lookupJob q i = some j) (hs : j.startedAt ≠ 0) (ops : List Op) :
    ∃ j2 : Job, lookupJob (run q ops) i = some j2 ∧ j2.startedAt ≠ 0 := by
  induction ops generalizing q j with
  | nil => exact ⟨j, hl, hs⟩
  | cons op rest ih =>
    obtain ⟨j1, hl1, hs1⟩ := started_stays_applyOp hw hl hs op
    exact ih (wf_applyOp hw op) hl1 hs1

/-- Claim C2: a job id is handed out by Dequeue at most once: once a
dequeue from a reachable state returns an id, no dequeue after any further
trace of facade calls returns that id again. -/
theorem dequeue_at_most_once (q : Queue) (hq : Reachable q) (ts : List String)
    (i : Nat) (ds : List Nat) (t : String) (a : Bytes) (q1 : Queue)
    (h1 : dequeue q ts = some (i, ds, t, a, q1)) (ops : List Op)
    (ts2 : List String) (i2 : Nat) (ds2 : List Nat) (t2 : String) (a2 : Bytes)
    (q2 : Queue) (h2 : dequeue (run q1 ops) ts2 = some (i2, ds2, t2, a2, q2)) :
    i2 ≠ i := by
  have hw := reachable_wf hq
  obtain ⟨j, hp, -, -, -, hq1⟩ := dequeue_ok_inv h1
  have hmem : (i, j) ∈ q.jobs := (List.mem_filter.mp (pickMin_mem hp)).1
  have hlook : lookupJob q i = some j := lookupJob_of_mem_nodup hw.keysNodup hmem
  have hw1 : WF q1 := wf_dequeue hw h1
  have hl1 : lookupJob q1 i = some { j with startedAt := q.clock + 1 } := by
    rw [hq1]
    exact lookupJob_setJob_self q i _ j hlook
  have hs1 : ({ j with startedAt := q.clock + 1 } : Job).startedAt ≠ 0 :=
    Nat.succ_ne_zero _
  obtain ⟨j2, hl2, hs2⟩ := started_stays_run hw1 hl1 hs1 ops
  have hwr : WF (run q1 ops) := wf_run hw1 ops
  obtain ⟨jx, hpx, -, -, -, -⟩ := dequeue_ok_inv h2
  have hmemx := List.mem_filter.mp (pickMin_mem hpx)
  have hdx : dispatchable (run q1 ops) jx = true := by
    have h3 := hmemx.2
    simp only [Bool.and_eq_true] at h3
    exact h3.2
  obtain ⟨hstx, -, -⟩ := dispatchable_spec hdx
  intro hii
  subst hii
  have hlx : lookupJob (run q1 ops) i2 = some jx :=
    lookupJob_of_mem_nodup hwr.keysNodup hmemx.1
  rw [hl2] at hlx
  injection hlx with hx
  rw [← hx] at hstx
  exact hs2 hstx

/-- Closed instance of claim C2: after job 0 is dequeued, the next
dequeue returns job 1, not job 0 again. -/
theorem dequeue_at_most_once_witness : (1 : Nat) ≠ 0 :=
  dequeue_at_most_once
    (run emptyQueue [Op.enq "t" (some [1]) [], Op.enq "t" (some [2]) []])
    ⟨[Op.enq "t" (some [1]) [], Op.enq "t" (some [2]) []], rfl⟩
    ["t"] 0 [] "t" [1]
    (applyOp (run emptyQueue [Op.enq "t" (some [1]) [], Op.enq "t" (some [2]) []])
      (Op.deq ["t"]))
    (by decide) [] ["t"] 1 [] "t" [2]
    (applyOp (applyOp (run emptyQueue [Op.enq "t" (some [1]) [],
      Op.enq "t" (some [2]) []]) (Op.deq ["t"])) (Op.deq ["t"]))
    (by decide)

end JobQueueModel

namespace JobQueueModel

/-- A fresh id looks up to nothing in a well-formed store. -/
theorem lookup_nextId_none {q : Queue} (hw : WF q) : lookupJob q q.nextId = none := by
  rcases hx : lookupJob q q.nextId with _ | j
  · rfl
  · have := hw.keysLt _ (lookupJob_mem hx)
    exact absurd this (Nat.lt_irrefl _)

/-- Args are immutable and, once finished, the finish time and result are
immutable, across one facade call. -/
theorem payload_stays_applyOp {q : Queue} {i : Nat} {j : Job} (hw : WF q)
    (hl : lookupJob q i = some j) (op : Op) :
    ∃ j2 : Job, lookupJob (applyOp q op) i = some j2 ∧ j2.args = j.args ∧
      (j.finishedAt ≠ 0 → j2.finishedAt = j.finishedAt ∧ j2.result = j.result) := by
  cases op with
  | enq t a d =>
    rcases he : enqueue q t a d with e | p
    · simp only [applyOp, he]
      exact ⟨j, hl, rfl, fun _ => ⟨rfl, rfl⟩⟩
    · rcases p with ⟨i0, q1⟩
      simp only [applyOp, he]
      obtain ⟨bytes, -, -, -, hq1⟩ := enqueue_ok_inv he
      subst hq1
      exact ⟨j, lookupJob_append_of_some _ hl, rfl, fun _ => ⟨rfl, rfl⟩⟩
  | deq ts =>
    rcases hd : dequeue q ts with _ | r
    · simp only [applyOp, hd]
      exact ⟨j, hl, rfl, fun _ => ⟨rfl, rfl⟩⟩
    · rcases r with ⟨i0, ds, t, a, q1⟩
      simp only [applyOp, hd]
      obtain ⟨j0, hp0, -, -, -, hq1⟩ := dequeue_ok_inv hd
      subst hq1
      by_cases hii : i = i0
      · subst hii
        have hmem0 : (i, j0) ∈ q.jobs := (List.mem_filter.mp (pickMin_mem hp0)).1
        have hl0 : lookupJob q i = some j0 := lookupJob_of_mem_nodup hw.keysNodup hmem0
        rw [hl] at hl0
        injection hl0 with hx
        subst hx
        refine ⟨{ j with startedAt := q.clock + 1 }, ?_, rfl, fun _ => ⟨rfl, rfl⟩⟩
        exact lookupJob_setJob_self q i _ j hl
      · refine ⟨j, ?_, rfl, fun _ => ⟨rfl, rfl⟩⟩
        have hr := lookupJob_setJob_ne q i0 i { j0 with startedAt := q.clock + 1 } hii
        rw [← hr] at hl
        exact hl
  | fin i0 r =>
    rcases hf : finishJob q i0 r with e | q1
    · simp only [applyOp, hf]
      exact ⟨j, hl, rfl, fun _ => ⟨rfl, rfl⟩⟩
    · simp only [applyOp, hf]
      obtain ⟨j0, hl0, hst0, hfin0, hq1⟩ := finish_ok_inv hf
      subst hq1
      by_cases hii : i = i0
      · subst hii
        rw [hl] at hl0
        injection hl0 with hx
        subst hx
        refine ⟨{ j with finishedAt := q.clock + 1, result := some r }, ?_, rfl, ?_⟩
        · exact lookupJob_setJob_self q i _ j hl
        · intro hjf
          exact absurd hfin0 hjf
      · refine ⟨j, ?_, rfl, fun _ => ⟨rfl, rfl⟩⟩
        have hr := lookupJob_setJob_ne q i0 i
          { j0 with finishedAt := q.clock + 1, result := some r } hii
        rw [← hr] at hl
        exact hl
  | cancel i0 =>
    rcases hc : cancelJob q i0 with e | q1
    · simp only [applyOp, hc]
      exact ⟨j, hl, rfl, fun _ => ⟨rfl, rfl⟩⟩
    · simp only [applyOp, hc]
      obtain ⟨j0, hl0, hcase⟩ := cancel_ok_inv hc
      rcases hcase with ⟨-, hq1⟩ | ⟨-, -, hq1⟩
      · subst hq1
        exact ⟨j, hl, rfl, fun _ => ⟨rfl, rfl⟩⟩
      · subst hq1
        rw [show lookupJob (cancelApply q i0) i = (lookupJob q i).map
            (fun jk => if (cancelSet q i0).contains i then { jk with canceled := true }
              else jk) from lookupJob_mapJobs q _ i]
        rw [hl]
        refine ⟨_, rfl, ?_, ?_⟩
        · show ((if (cancelSet q i0).contains i then { j with canceled := true }
            else j) : Job).args = j.args
          by_cases hin : ((cancelSet q i0).contains i) = true
          · rw [if_pos hin]
          · rw [if_neg hin]
        · intro hjf
          constructor
          · show ((if (cancelSet q i0).contains i then { j with canceled := true }
              else j) : Job).finishedAt = j.finishedAt
            by_cases hin : ((cancelSet q i0).contains i) = true
            · rw [if_pos hin]
            · rw [if_neg hin]
          · show ((if (cancelSet q i0).contains i then { j with canceled := true }
              else j) : Job).result = j.result
            by_cases hin : ((cancelSet q i0).contains i) = true
            · rw [if_pos hin]
            · rw [if_neg hin]
  | status i0 => exact ⟨j, hl, rfl, fun _ => ⟨rfl, rfl⟩⟩
  | args i0 => exact ⟨j, hl, rfl, fun _ => ⟨rfl, rfl⟩⟩

/-- Args and, once finished, the result are immutable across any trace. -/
theorem payload_stays_run {q : Queue} {i : Nat} {j : Job} (hw : WF q)
    (hl : lookupJob q i = some j) (ops : List Op) :
    ∃ j2 : Job, lookupJob (run q ops) i = some j2 ∧ j2.args = j.args ∧
      (j.finishedAt ≠ 0 → j2.finishedAt = j.finishedAt ∧ j2.result = j.result) := by
  induction ops generalizing q j with
  | nil => exact ⟨j, hl, rfl, fun _ => ⟨rfl, rfl⟩⟩
  | cons op rest ih =>
    obtain ⟨j1, hl1, ha1, hf1⟩ := payload_stays_applyOp hw hl op
    obtain ⟨j2, hl2, ha2, hf2⟩ := ih (wf_applyOp hw op) hl1
    refine ⟨j2, hl2, by rw [ha2, ha1], ?_⟩
    intro hjf
    obtain ⟨hff1, hrr1⟩ := hf1 hjf
    have hjf1 : j1.finishedAt ≠ 0 := by rw [hff1]; exact hjf
    obtain ⟨hff2, hrr2⟩ := hf2 hjf1
    exact ⟨by rw [hff2, hff1], by rw [hrr2, hrr1]⟩

/-- Claim C6: the queue round-trips opaque payloads byte for byte: the
args bytes given to a successful Enqueue are returned unchanged by Args
after any further trace, and the result bytes given to a successful
Finish are returned unchanged by Status after any further trace. -/
theorem payload_round_trip (q : Queue) (hq : Reachable q) :
    (∀ (t : String) (bs : Bytes) (deps : List Nat) (i : Nat) (q1 : Queue) (ops : List Op),
      enqueue q t (some bs) deps = Except.ok (i, q1) →
        jobArgs (run q1 ops) i = Except.ok bs) ∧
    (∀ (i : Nat) (r : Bytes) (q1 : Queue) (ops : List Op),
      finishJob q i r = Except.ok q1 →
        ∃ st : Option Bytes × Nat × Nat × Nat × Bool × List Nat,
          jobStatus (run q1 ops) i = Except.ok st ∧ st.1 = some r) := by
  have hw := reachable_wf hq
  constructor
  · intro t bs deps i q1 ops he
    obtain ⟨bytes, hb, -, hi, hq1⟩ := enqueue_ok_inv he
    have hbs : bytes = bs := by
      injection hb with hx
      rw [hx]
    rw [hbs] at hq1
    have hw1 : WF q1 := wf_enqueue hw he
    have hl1 : lookupJob q1 i = some (freshJob q t bs deps) := by
      rw [hi]
      have hco : lookupJob q1 q.nextId =
          (lookupJob q q.nextId).or ((([(q.nextId, freshJob q t bs deps)] :
            List (Nat × Job)).find? (fun p => p.1 == q.nextId)).map Prod.snd) := by
        rw [hq1]
        exact lookupJob_append q [(q.nextId, freshJob q t bs deps)] q.nextId
      rw [hco, lookup_nextId_none hw]
      rw [List.find?_cons_of_pos ([] : List (Nat × Job)) (by simp)]
      rfl
    obtain ⟨j2, hl2, ha2, -⟩ := payload_stays_run hw1 hl1 ops
    unfold jobArgs
    rw [hl2]
    show Except.ok j2.args = Except.ok bs
    rw [ha2]
    rfl
  · intro i r q1 ops hf
    obtain ⟨j0, hl0, hst0, hfin0, hq1⟩ := finish_ok_inv hf
    have hw1 : WF q1 := wf_finish hw hf
    have hl1 : lookupJob q1 i =
        some { j0 with finishedAt := q.clock + 1, result := some r } := by
      subst hq1
      exact lookupJob_setJob_self q i _ j0 hl0
    obtain ⟨j2, hl2, -, himp⟩ := payload_stays_run hw1 hl1 ops
    obtain ⟨-, hres⟩ := himp (Nat.succ_ne_zero _)
    refine ⟨(j2.result, j2.queuedAt, j2.startedAt, j2.finishedAt, j2.canceled, j2.deps),
      ?_, ?_⟩
    · unfold jobStatus
      rw [hl2]
    · exact hres

/-- Closed instance of claim C6: args [3] submitted to the empty queue
are read back unchanged. -/
theorem payload_round_trip_witness :
    jobArgs (run (applyOp emptyQueue (Op.enq "t" (some [3]) [])) []) 0 =
      Except.ok [3] :=
  (payload_round_trip emptyQueue ⟨[], rfl⟩).1 "t" [3] [] 0
    (applyOp emptyQueue (Op.enq "t" (some [3]) [])) [] rfl

end JobQueueModel

namespace JobQueueModel

/-- One cascade round only grows the visited set. -/
theorem subset_cancelStepSet (q : Queue) (s : List Nat) : s ⊆ cancelStepSet q s :=
  fun _ hx => List.mem_append_left _ hx

/-- Cascade rounds are monotone in the round count. -/
theorem cancelClosure_mono (q : Queue) (i : Nat) {n m : Nat} (h : n ≤ m) :
    cancelClosure q i n ⊆ cancelClosure q i m := by
  induction m with
  | zero =>
    have hn : n = 0 := Nat.le_zero.mp h
    rw [hn]
    exact fun x hx => hx
  | succ m ih =>
    rcases Nat.lt_or_ge n (m + 1) with hlt | hge
    · intro x hx
      exact subset_cancelStepSet q _ (ih (Nat.lt_succ_iff.mp hlt) hx)
    · have hn : n = m + 1 := Nat.le_antisymm h hge
      rw [hn]
      exact fun x hx => hx

/-- A not-yet-finished dependent of a visited job is visited in the next
round. -/
theorem cancelStepSet_adds {q : Queue} {s : List Nat} {k : Nat} {jk : Job}
    (hm : (k, jk) ∈ q.jobs) (hfin : jk.finishedAt = 0) {d : Nat}
    (hd : d ∈ jk.deps) (hds : d ∈ s) : k ∈ cancelStepSet q s := by
  by_cases hk : k ∈ s
  · exact List.mem_append_left _ hk
  · apply List.mem_append_right
    apply List.mem_map.mpr
    refine ⟨(k, jk), ?_, rfl⟩
    apply List.mem_filter.mpr
    refine ⟨hm, ?_⟩
    simp only [Bool.and_eq_true, beq_iff_eq, Bool.not_eq_true']
    refine ⟨⟨hfin, ?_⟩, ?_⟩
    · rcases hc : s.contains k with _ | _
      · rfl
      · exact absurd (List.mem_of_elem_eq_true hc) hk
    · apply List.any_eq_true.mpr
      exact ⟨d, hd, List.elem_eq_true_of_mem hds⟩

/-- In a well-formed state, every transitive dependent of an unfinished
job is itself unfinished. -/
theorem revreach_unfinished {q : Queue} (hw : WF q) {i : Nat} {j : Job}
    (hl : lookupJob q i = some j) (hfin : j.finishedAt = 0) {k : Nat}
    (hk : RevReach q i k) :
    ∃ jk : Job, lookupJob q k = some jk ∧ jk.finishedAt = 0 := by
  induction hk with
  | refl => exact ⟨j, hl, hfin⟩
  | step k1 k2 jk2 hprev hlk2 hdep ih =>
    rcases ih with ⟨jk, hlk, hkfin⟩
    refine ⟨jk2, hlk2, ?_⟩
    by_contra hne
    have hst := hw.finStarted (k2, jk2) (lookupJob_mem hlk2) hne
    have hdf := hw.startedDepsFin (k2, jk2) (lookupJob_mem hlk2) hst k1 hdep jk hlk
    exact hdf hkfin

/-- In a well-formed state, every transitive dependent of an unfinished
job is visited by the cascade. -/
theorem revreach_in_cancelSet {q : Queue} (hw : WF q) {i : Nat} {j : Job}
    (hl : lookupJob q i = some j) (hfin : j.finishedAt = 0) {k : Nat}
    (hk : RevReach q i k) : k ∈ cancelSet q i := by
  have haux : ∀ k2 : Nat, RevReach q i k2 →
      k2 ∈ cancelClosure q i (k2 + 1) ∧ k2 < q.nextId := by
    intro k2 hk2
    induction hk2 with
    | refl =>
      constructor
      · exact cancelClosure_mono q i (Nat.zero_le _) (by simp [cancelClosure])
      · exact hw.keysLt (i, j) (lookupJob_mem hl)
    | step k1 k2 jk2 hprev hlk2 hdep ih =>
      obtain ⟨hin1, hlt1⟩ := ih
      have hk2reach : RevReach q i k2 := RevReach.step k1 k2 jk2 hprev hlk2 hdep
      obtain ⟨jk2b, hlk2b, hfin2⟩ := revreach_unfinished hw hl hfin hk2reach
      rw [hlk2] at hlk2b
      injection hlk2b with hx
      rw [← hx] at hfin2
      have hmem2 : (k2, jk2) ∈ q.jobs := lookupJob_mem hlk2
      have hlt12 : k1 < k2 := hw.depsLt (k2, jk2) hmem2 k1 hdep
      have hstep : k2 ∈ cancelClosure q i (k1 + 2) :=
        cancelStepSet_adds hmem2 hfin2 hdep hin1
      constructor
      · exact cancelClosure_mono q i (Nat.succ_le_succ hlt12) hstep
      · exact hw.keysLt (k2, jk2) hmem2
  obtain ⟨hin, hlt⟩ := haux k hk
  exact cancelClosure_mono q i hlt hin

/-- Claim C4, amended: when Cancel is called on an existing job that is
neither finished nor already canceled, then after it returns every job
reachable from it in the reverse-dependency graph carries the canceled
flag, except those that were already finished. (In the original claim,
without the proviso on the canceled job itself, the property fails: Cancel
on a finished or already-canceled job is a no-op and does not touch
dependents submitted afterwards.) -/
theorem cancel_cascade_closure (q : Queue) (hq : Reachable q) (i : Nat) (j : Job)
    (hj : lookupJob q i = some j) (hfin : j.finishedAt = 0) (hcan : j.canceled = false)
    (q1 : Queue) (hc : cancelJob q i = Except.ok q1) (k : Nat) (hk : RevReach q i k) :
    ∃ jk : Job, lookupJob q1 k = some jk ∧ (jk.finishedAt = 0 → jk.canceled = true) := by
  have hw := reachable_wf hq
  obtain ⟨j0, hl0, hcase⟩ := cancel_ok_inv hc
  rw [hj] at hl0
  injection hl0 with hx
  rw [← hx] at hcase
  rcases hcase with ⟨hbad, -⟩ | ⟨-, -, hq1⟩
  · rcases hbad with hbad | hbad
    · exact absurd hfin hbad
    · rw [hcan] at hbad
      cases hbad
  · subst hq1
    obtain ⟨jk0, hlk0, -⟩ := revreach_unfinished hw hj hfin hk
    have hks : k ∈ cancelSet q i := revreach_in_cancelSet hw hj hfin hk
    refine ⟨{ jk0 with canceled := true }, ?_, fun _ => rfl⟩
    rw [show lookupJob (cancelApply q i) k = (lookupJob q k).map
        (fun jk => if (cancelSet q i).contains k then { jk with canceled := true }
          else jk) from lookupJob_mapJobs q _ k]
    rw [hlk0]
    rw [Option.map_some']
    rw [if_pos (List.elem_eq_true_of_mem hks)]

/-- Closed instance of the amended claim C4: canceling the fresh job 0
marks its dependent job 1 canceled. -/
theorem cancel_cascade_closure_witness :
    ∃ jk : Job,
      lookupJob (applyOp (run emptyQueue [Op.enq "t" (some [1]) [],
        Op.enq "t" (some [2]) [0]]) (Op.cancel 0)) 1 = some jk ∧
      (jk.finishedAt = 0 → jk.canceled = true) :=
  cancel_cascade_closure
    (run emptyQueue [Op.enq "t" (some [1]) [], Op.enq "t" (some [2]) [0]])
    ⟨[Op.enq "t" (some [1]) [], Op.enq "t" (some [2]) [0]], rfl⟩
    0
    { jobType := "t", args := [1], deps := [], queuedAt := 1, startedAt := 0,
      finishedAt := 0, canceled := false, result := none }
    (by decide) rfl rfl
    (applyOp (run emptyQueue [Op.enq "t" (some [1]) [],
      Op.enq "t" (some [2]) [0]]) (Op.cancel 0))
    rfl
    1 (RevReach.step 0 1
      { jobType := "t", args := [2], deps := [0], queuedAt := 2, startedAt := 0,
        finishedAt := 0, canceled := false, result := none }
      RevReach.refl (by decide) (by decide))

/-- Counterexample to claim C4 as stated: in the reachable state where job
0 was dequeued and finished and job 1 was then submitted depending on it,
Cancel of job 0 succeeds as a no-op, yet the dependent job 1 — reachable
from 0 in the reverse-dependency graph and not finished — does not carry
the canceled flag afterwards. -/
theorem cancel_cascade_counterexample :
    Reachable (run emptyQueue [Op.enq "t" (some [1]) [], Op.deq ["t"],
      Op.fin 0 [7], Op.enq "t" (some [2]) [0]]) ∧
    cancelJob (run emptyQueue [Op.enq "t" (some [1]) [], Op.deq ["t"],
      Op.fin 0 [7], Op.enq "t" (some [2]) [0]]) 0 =
      Except.ok (run emptyQueue [Op.enq "t" (some [1]) [], Op.deq ["t"],
        Op.fin 0 [7], Op.enq "t" (some [2]) [0]]) ∧
    RevReach (run emptyQueue [Op.enq "t" (some [1]) [], Op.deq ["t"],
      Op.fin 0 [7], Op.enq "t" (some [2]) [0]]) 0 1 ∧
    (lookupJob (run emptyQueue [Op.enq "t" (some [1]) [], Op.deq ["t"],
      Op.fin 0 [7], Op.enq "t" (some [2]) [0]]) 1).map
        (fun j => (j.finishedAt, j.canceled)) = some (0, false) := by
  refine ⟨⟨[Op.enq "t" (some [1]) [], Op.deq ["t"], Op.fin 0 [7],
    Op.enq "t" (some [2]) [0]], rfl⟩, rfl, ?_, by decide⟩
  exact RevReach.step 0 1
    { jobType := "t", args := [2], deps := [0], queuedAt := 4, startedAt := 0,
      finishedAt := 0, canceled := false, result := none }
    RevReach.refl (by decide) (by decide)

end JobQueueModel

namespace JobQueueModel

/-- Arithmetic reading of the FIFO priority. -/
theorem lexBefore_iff (a b : Nat × Job) :
    lexBefore a b = true ↔
      (a.2.queuedAt < b.2.queuedAt ∨ (a.2.queuedAt = b.2.queuedAt ∧ a.1 < b.1)) := by
  unfold lexBefore
  simp [Bool.or_eq_true, Bool.and_eq_true, decide_eq_true_eq, beq_iff_eq]

/-- Nothing is strictly before itself. -/
theorem lexBefore_irrefl (a : Nat × Job) : lexBefore a a = false := by
  rw [Bool.eq_false_iff]
  intro h
  rw [lexBefore_iff] at h
  omega

/-- The complement of the FIFO priority is transitive. -/
theorem lexBefore_neg_trans {a b c : Nat × Job} (h1 : lexBefore b a = false)
    (h2 : lexBefore c b = false) : lexBefore c a = false := by
  have h1p : ¬(b.2.queuedAt < a.2.queuedAt ∨ (b.2.queuedAt = a.2.queuedAt ∧ b.1 < a.1)) :=
    fun hc => (Bool.eq_false_iff.mp h1) ((lexBefore_iff b a).mpr hc)
  have h2p : ¬(c.2.queuedAt < b.2.queuedAt ∨ (c.2.queuedAt = b.2.queuedAt ∧ c.1 < b.1)) :=
    fun hc => (Bool.eq_false_iff.mp h2) ((lexBefore_iff c b).mpr hc)
  cases he : lexBefore c a
  · rfl
  · exfalso
    have hca := (lexBefore_iff c a).mp he
    omega

/-- If the result is not after p and p is strictly before c, the result is
strictly before c as well. -/
theorem lexBefore_le_lt {p c r : Nat × Job} (h1 : lexBefore p r = false)
    (h2 : lexBefore p c = true) : lexBefore c r = false := by
  rw [Bool.eq_false_iff] at h1 ⊢
  rw [lexBefore_iff] at h2
  intro h
  apply h1
  rw [lexBefore_iff] at h ⊢
  omega

/-- Strict priority is asymmetric. -/
theorem lexBefore_asymm {a b : Nat × Job} (h : lexBefore a b = true) :
    lexBefore b a = false := by
  have hab := (lexBefore_iff a b).mp h
  cases he : lexBefore b a
  · rfl
  · exfalso
    have hba := (lexBefore_iff b a).mp he
    omega

/-- No scanned entry is strictly before the selected one. -/
theorem pickMinAux_min (cur : Nat × Job) (l : List (Nat × Job)) :
    ∀ b ∈ cur :: l, lexBefore b (pickMinAux cur l) = false := by
  induction l generalizing cur with
  | nil =>
    intro b hb
    have hb2 : b = cur := by simpa using hb
    rw [hb2]
    exact lexBefore_irrefl cur
  | cons p rest ih =>
    intro b hb
    by_cases hp : lexBefore p cur = true
    · have hres : pickMinAux cur (p :: rest) = pickMinAux p rest := by
        simp [pickMinAux, hp]
      rw [hres]
      rcases List.mem_cons.mp hb with hb1 | hb1
      · rw [hb1]
        exact lexBefore_le_lt (ih p p (List.mem_cons_self p rest)) hp
      · exact ih p b hb1
    · have hp2 : lexBefore p cur = false := Bool.eq_false_iff.mpr hp
      have hres : pickMinAux cur (p :: rest) = pickMinAux cur rest := by
        simp [pickMinAux, hp2]
      rw [hres]
      rcases List.mem_cons.mp hb with hb1 | hb1
      · rw [hb1]
        exact ih cur cur (List.mem_cons_self cur rest)
      · rcases List.mem_cons.mp hb1 with hb2 | hb2
        · rw [hb2]
          exact lexBefore_neg_trans (ih cur cur (List.mem_cons_self cur rest)) hp2
        · exact ih cur b (List.mem_cons_of_mem cur hb2)

/-- No candidate is strictly before the selected one. -/
theorem pickMin_min {l : List (Nat × Job)} {r : Nat × Job} (h : pickMin l = some r) :
    ∀ b ∈ l, lexBefore b r = false := by
  cases l with
  | nil => cases h
  | cons x rest =>
    intro b hb
    simp only [pickMin] at h
    injection h with hx
    rw [← hx]
    exact pickMinAux_min x rest b hb

/-- On a FIFO-sorted list the scan returns the first entry. -/
theorem pickMinAux_of_sorted {cur : Nat × Job} {l : List (Nat × Job)}
    (h : (cur :: l).Pairwise (fun a b => lexBefore a b = true)) :
    pickMinAux cur l = cur := by
  induction l generalizing cur with
  | nil => rfl
  | cons p rest ih =>
    have hcp : lexBefore cur p = true := (List.pairwise_cons.mp h).1 p (by simp)
    have hp2 : lexBefore p cur = false := lexBefore_asymm hcp
    have hres : pickMinAux cur (p :: rest) = pickMinAux cur rest := by
      simp [pickMinAux, hp2]
    rw [hres]
    apply ih
    have hsub : List.Sublist (cur :: rest) (cur :: p :: rest) := by
      apply List.cons_sublist_cons.mpr
      exact List.sublist_cons_self p rest
    exact h.sublist hsub

end JobQueueModel

namespace JobQueueModel

/-- Restricted trace alphabet for the FIFO property: submissions of one
type with no dependencies, and dequeues accepting that type. -/
inductive TOp
  | sub (args : Bytes)
  | take
deriving Repr, DecidableEq

/-- The ids successive submissions receive, given the next fresh id. -/
def subIds (n : Nat) : List TOp → List Nat
  | [] => []
  | TOp.sub _ :: rest => n :: subIds (n + 1) rest
  | TOp.take :: rest => subIds n rest

/-- The ids successive dequeues return along the restricted trace. -/
def outIds (t : String) (q : Queue) : List TOp → List Nat
  | [] => []
  | TOp.sub a :: rest => outIds t (applyOp q (Op.enq t (some a) [])) rest
  | TOp.take :: rest =>
    match dequeue q [t] with
    | some (i, _, _, _, q1) => i :: outIds t q1 rest
    | none => outIds t q rest

/-- The ids of the jobs not yet handed to a worker, in store order. -/
def unstartedKeys (q : Queue) : List Nat :=
  (q.jobs.filter (fun p => p.2.startedAt == 0)).map Prod.fst

/-- Invariant of the restricted traces: all jobs have the one type, no
dependencies and no cancellation; queue times are bounded by the clock and
FIFO-sorted in store order; ids are increasing and bounded by the counter;
and the store is a block of started jobs followed by a block of unstarted
ones. -/
structure FifoInv (t : String) (q : Queue) : Prop where
  shape : ∀ p ∈ q.jobs, p.2.jobType = t ∧ p.2.deps = ([] : List Nat) ∧
    p.2.canceled = false
  qleclock : ∀ p ∈ q.jobs, p.2.queuedAt ≤ q.clock
  keysLtN : ∀ p ∈ q.jobs, p.1 < q.nextId
  sorted : q.jobs.Pairwise (fun a b => lexBefore a b = true)
  idSorted : q.jobs.Pairwise (fun a b => a.1 < b.1)
  split : ∃ A B : List (Nat × Job), q.jobs = A ++ B ∧
    (∀ p ∈ A, p.2.startedAt ≠ 0) ∧ (∀ p ∈ B, p.2.startedAt = 0)

theorem fifoInv_empty (t : String) : FifoInv t emptyQueue := by
  refine ⟨?_, ?_, ?_, ?_, ?_, ⟨[], [], rfl, ?_, ?_⟩⟩ <;>
    first
      | (intro p hp; cases hp)
      | exact List.Pairwise.nil

/-- Equation: a submission step of the restricted trace. -/
theorem outIds_sub (t : String) (q : Queue) (a : Bytes) (rest : List TOp) :
    outIds t q (TOp.sub a :: rest) =
      outIds t (applyOp q (Op.enq t (some a) [])) rest := rfl

/-- Equation: a successful dequeue step of the restricted trace. -/
theorem outIds_take_some {t : String} {q : Queue} {rest : List TOp} {i : Nat}
    {ds : List Nat} {tt : String} {a : Bytes} {q1 : Queue}
    (h : dequeue q [t] = some (i, ds, tt, a, q1)) :
    outIds t q (TOp.take :: rest) = i :: outIds t q1 rest := by
  simp only [outIds, h]

/-- Equation: a blocked dequeue step of the restricted trace. -/
theorem outIds_take_none {t : String} {q : Queue} {rest : List TOp}
    (h : dequeue q [t] = none) :
    outIds t q (TOp.take :: rest) = outIds t q rest := by
  simp only [outIds, h]

/-- A map that fixes every element of a list fixes the list. -/
theorem map_preserve_eq {l : List (Nat × Job)} {f : Nat × Job → Nat × Job}
    (h : ∀ p ∈ l, f p = p) : l.map f = l := by
  induction l with
  | nil => rfl
  | cons p rest ih =>
    show f p :: rest.map f = p :: rest
    rw [h p (by simp), ih (fun x hx => h x (List.mem_cons_of_mem p hx))]

end JobQueueModel

namespace JobQueueModel

theorem filter_unstarted_none {l : List (Nat × Job)} (h : ∀ p ∈ l, p.2.startedAt ≠ 0) :
    l.filter (fun p => p.2.startedAt == 0) = [] := by
  rw [List.filter_eq_nil_iff]
  intro p hp
  simp only [beq_iff_eq]
  exact h p hp

theorem filter_unstarted_all {l : List (Nat × Job)} (h : ∀ p ∈ l, p.2.startedAt = 0) :
    l.filter (fun p => p.2.startedAt == 0) = l :=
  List.filter_eq_self.mpr (fun p hp => by simp [h p hp])

theorem filter_cand_none {q : Queue} {t : String} {l : List (Nat × Job)}
    (h : ∀ p ∈ l, p.2.startedAt ≠ 0) :
    l.filter (fun p => [t].contains p.2.jobType && dispatchable q p.2) = [] := by
  rw [List.filter_eq_nil_iff]
  intro p hp hc
  simp only [Bool.and_eq_true] at hc
  have hd := hc.2
  unfold dispatchable at hd
  simp only [Bool.and_eq_true, beq_iff_eq] at hd
  exact h p hp hd.1.1

theorem filter_cand_all {q : Queue} {t : String} {l : List (Nat × Job)}
    (hsh : ∀ p ∈ l, p.2.jobType = t ∧ p.2.deps = ([] : List Nat) ∧ p.2.canceled = false)
    (h : ∀ p ∈ l, p.2.startedAt = 0) :
    l.filter (fun p => [t].contains p.2.jobType && dispatchable q p.2) = l := by
  apply List.filter_eq_self.mpr
  intro p hp
  obtain ⟨h1, h2, h3⟩ := hsh p hp
  simp [dispatchable, h1, h2, h3, h p hp]

/-- The state a no-dependency submission produces. -/
theorem fifo_sub_state (t : String) (q : Queue) (a : Bytes) :
    applyOp q (Op.enq t (some a) []) =
      (⟨q.jobs ++ [(q.nextId, freshJob q t a [])], q.nextId + 1, q.clock + 1⟩ : Queue) := by
  rfl

/-- Submissions preserve the FIFO invariant. -/
theorem fifo_sub_inv {t : String} {q : Queue} (hinv : FifoInv t q) (a : Bytes) :
    FifoInv t (⟨q.jobs ++ [(q.nextId, freshJob q t a [])],
      q.nextId + 1, q.clock + 1⟩ : Queue) := by
  obtain ⟨A, B, hAB, hA, hB⟩ := hinv.split
  refine ⟨?_, ?_, ?_, ?_, ?_, ?_⟩
  · intro p hp
    rcases List.mem_append.mp hp with hp | hp
    · exact hinv.shape p hp
    · have hp2 : p = (q.nextId, freshJob q t a []) := by simpa using hp
      rw [hp2]
      exact ⟨rfl, rfl, rfl⟩
  · intro p hp
    rcases List.mem_append.mp hp with hp | hp
    · exact Nat.le_succ_of_le (hinv.qleclock p hp)
    · have hp2 : p = (q.nextId, freshJob q t a []) := by simpa using hp
      rw [hp2]
      exact Nat.le_refl _
  · intro p hp
    rcases List.mem_append.mp hp with hp | hp
    · exact Nat.lt_succ_of_lt (hinv.keysLtN p hp)
    · have hp2 : p = (q.nextId, freshJob q t a []) := by simpa using hp
      rw [hp2]
      exact Nat.lt_succ_self _
  · rw [List.pairwise_append]
    refine ⟨hinv.sorted, by simp, ?_⟩
    intro p hp b hb
    have hb2 : b = (q.nextId, freshJob q t a []) := by simpa using hb
    rw [hb2]
    apply (lexBefore_iff p (q.nextId, freshJob q t a [])).mpr
    left
    show p.2.queuedAt < q.clock + 1
    exact Nat.lt_succ_of_le (hinv.qleclock p hp)
  · rw [List.pairwise_append]
    refine ⟨hinv.idSorted, by simp, ?_⟩
    intro p hp b hb
    have hb2 : b = (q.nextId, freshJob q t a []) := by simpa using hb
    rw [hb2]
    exact hinv.keysLtN p hp
  · refine ⟨A, B ++ [(q.nextId, freshJob q t a [])], ?_, hA, ?_⟩
    · show q.jobs ++ [(q.nextId, freshJob q t a [])] = A ++ (B ++ _)
      rw [hAB, List.append_assoc]
    · intro p hp
      rcases List.mem_append.mp hp with hp | hp
      · exact hB p hp
      · have hp2 : p = (q.nextId, freshJob q t a []) := by simpa using hp
        rw [hp2]
        rfl

/-- Submissions append the fresh id to the unstarted block. -/
theorem fifo_sub_keys (t : String) (q : Queue) (a : Bytes) :
    unstartedKeys (⟨q.jobs ++ [(q.nextId, freshJob q t a [])],
      q.nextId + 1, q.clock + 1⟩ : Queue) = unstartedKeys q ++ [q.nextId] := by
  unfold unstartedKeys
  show ((q.jobs ++ [(q.nextId, freshJob q t a [])]).filter
    (fun p => p.2.startedAt == 0)).map Prod.fst = _
  rw [List.filter_append, List.map_append]
  rfl

end JobQueueModel

namespace JobQueueModel

/-- The state a successful claim of job `i` with record `j` produces. -/
def startClaim (q : Queue) (i : Nat) (j : Job) : Queue :=
  { setJob q i { j with startedAt := q.clock + 1 } with clock := q.clock + 1 }

/-- In a FIFO-invariant state whose unstarted block is nonempty, a dequeue
accepting the type claims exactly the head of the unstarted block,
preserves the invariant, and pops that head off the unstarted key list. -/
theorem fifo_take_step {t : String} {q : Queue} (hinv : FifoInv t q)
    {A : List (Nat × Job)} {i0 : Nat} {j0 : Job} {ctail : List (Nat × Job)}
    (hAB : q.jobs = A ++ (i0, j0) :: ctail)
    (hA : ∀ p ∈ A, p.2.startedAt ≠ 0)
    (hB : ∀ p ∈ (i0, j0) :: ctail, p.2.startedAt = 0) :
    dequeue q [t] = some (i0, j0.deps, j0.jobType, j0.args, startClaim q i0 j0) ∧
    FifoInv t (startClaim q i0 j0) ∧
    unstartedKeys (startClaim q i0 j0) = ctail.map Prod.fst ∧
    unstartedKeys q = i0 :: ctail.map Prod.fst := by
  have hBtail : ∀ p ∈ ctail, p.2.startedAt = 0 :=
    fun p hp => hB p (List.mem_cons_of_mem _ hp)
  have hshB : ∀ p ∈ (i0, j0) :: ctail, p.2.jobType = t ∧
      p.2.deps = ([] : List Nat) ∧ p.2.canceled = false := by
    intro p hp
    apply hinv.shape p
    rw [hAB]
    exact List.mem_append_right A hp
  have hcand : candidates q [t] = (i0, j0) :: ctail := by
    unfold candidates
    rw [hAB, List.filter_append, filter_cand_none hA, filter_cand_all hshB hB]
    exact List.nil_append _
  have hsortedB : ((i0, j0) :: ctail).Pairwise (fun a b => lexBefore a b = true) := by
    have hs : List.Sublist ((i0, j0) :: ctail) q.jobs := by
      rw [hAB]
      exact List.sublist_append_right A _
    exact hinv.sorted.sublist hs
  have hpick : pickMin (candidates q [t]) = some (i0, j0) := by
    rw [hcand]
    show some (pickMinAux (i0, j0) ctail) = some (i0, j0)
    rw [pickMinAux_of_sorted hsortedB]
  have hdeq : dequeue q [t] =
      some (i0, j0.deps, j0.jobType, j0.args, startClaim q i0 j0) := by
    unfold dequeue
    rw [hpick]
    exact rfl
  have hidAll : (A ++ (i0, j0) :: ctail).Pairwise (fun a b => a.1 < b.1) :=
    hAB ▸ hinv.idSorted
  rcases List.pairwise_append.mp hidAll with ⟨hidA, hidB, hidcross⟩
  have hAne : ∀ p ∈ A, p.1 ≠ i0 := by
    intro p hp
    have := hidcross p hp (i0, j0) (by simp)
    omega
  have hCne : ∀ p ∈ ctail, p.1 ≠ i0 := by
    intro p hp
    have := (List.pairwise_cons.mp hidB).1 p hp
    omega
  have hjobs : (startClaim q i0 j0).jobs =
      A ++ (i0, { j0 with startedAt := q.clock + 1 }) :: ctail := by
    show q.jobs.map (fun p =>
      (p.1, if p.1 = i0 then { j0 with startedAt := q.clock + 1 } else p.2)) = _
    rw [hAB, List.map_append, List.map_cons]
    have hmA : A.map (fun p =>
        (p.1, if p.1 = i0 then { j0 with startedAt := q.clock + 1 } else p.2)) = A := by
      apply map_preserve_eq
      intro p hp
      show (p.1, if p.1 = i0 then _ else p.2) = p
      rw [if_neg (hAne p hp)]
    have hmC : ctail.map (fun p =>
        (p.1, if p.1 = i0 then { j0 with startedAt := q.clock + 1 } else p.2)) = ctail := by
      apply map_preserve_eq
      intro p hp
      show (p.1, if p.1 = i0 then _ else p.2) = p
      rw [if_neg (hCne p hp)]
    rw [hmA, hmC]
    rw [if_pos rfl]
  have hsortedAll : (A ++ (i0, j0) :: ctail).Pairwise
      (fun a b => lexBefore a b = true) := hAB ▸ hinv.sorted
  rcases List.pairwise_append.mp hsortedAll with ⟨pA, pB, pcross⟩
  rcases List.pairwise_cons.mp pB with ⟨pHead, pTail⟩
  refine ⟨hdeq, ?_, ?_, ?_⟩
  · refine ⟨?_, ?_, ?_, ?_, ?_, ?_⟩
    · intro p hp
      rw [hjobs] at hp
      rcases List.mem_append.mp hp with hp | hp
      · apply hinv.shape p
        rw [hAB]
        exact List.mem_append_left _ hp
      · rcases List.mem_cons.mp hp with hp1 | hp1
        · rw [hp1]
          have hhd := hshB (i0, j0) (by simp)
          exact ⟨hhd.1, hhd.2.1, hhd.2.2⟩
        · apply hinv.shape p
          rw [hAB]
          exact List.mem_append_right A (List.mem_cons_of_mem _ hp1)
    · intro p hp
      rw [hjobs] at hp
      show p.2.queuedAt ≤ q.clock + 1
      rcases List.mem_append.mp hp with hp | hp
      · apply Nat.le_succ_of_le
        apply hinv.qleclock p
        rw [hAB]
        exact List.mem_append_left _ hp
      · rcases List.mem_cons.mp hp with hp1 | hp1
        · rw [hp1]
          show j0.queuedAt ≤ q.clock + 1
          apply Nat.le_succ_of_le
          apply hinv.qleclock (i0, j0)
          rw [hAB]
          exact List.mem_append_right A (by simp)
        · apply Nat.le_succ_of_le
          apply hinv.qleclock p
          rw [hAB]
          exact List.mem_append_right A (List.mem_cons_of_mem _ hp1)
    · intro p hp
      rw [hjobs] at hp
      show p.1 < q.nextId
      rcases List.mem_append.mp hp with hp | hp
      · apply hinv.keysLtN p
        rw [hAB]
        exact List.mem_append_left _ hp
      · rcases List.mem_cons.mp hp with hp1 | hp1
        · rw [hp1]
          show i0 < q.nextId
          have := hinv.keysLtN (i0, j0) (by rw [hAB]; exact List.mem_append_right A (by simp))
          exact this
        · apply hinv.keysLtN p
          rw [hAB]
          exact List.mem_append_right A (List.mem_cons_of_mem _ hp1)
    · show (startClaim q i0 j0).jobs.Pairwise (fun a b => lexBefore a b = true)
      rw [hjobs, List.pairwise_append]
      refine ⟨pA, ?_, ?_⟩
      · rw [List.pairwise_cons]
        refine ⟨?_, pTail⟩
        intro b hb
        exact pHead b hb
      · intro p hp b hb
        rcases List.mem_cons.mp hb with hb1 | hb1
        · rw [hb1]
          exact pcross p hp (i0, j0) (by simp)
        · exact pcross p hp b (List.mem_cons_of_mem _ hb1)
    · show (startClaim q i0 j0).jobs.Pairwise (fun a b => a.1 < b.1)
      rw [hjobs, List.pairwise_append]
      refine ⟨hidA, ?_, ?_⟩
      · rw [List.pairwise_cons]
        refine ⟨?_, (List.pairwise_cons.mp hidB).2⟩
        intro b hb
        exact (List.pairwise_cons.mp hidB).1 b hb
      · intro p hp b hb
        rcases List.mem_cons.mp hb with hb1 | hb1
        · rw [hb1]
          exact hidcross p hp (i0, j0) (by simp)
        · exact hidcross p hp b (List.mem_cons_of_mem _ hb1)
    · refine ⟨A ++ [(i0, { j0 with startedAt := q.clock + 1 })], ctail, ?_, ?_, hBtail⟩
      · rw [hjobs, List.append_assoc]
        rfl
      · intro p hp
        rcases List.mem_append.mp hp with hp | hp
        · exact hA p hp
        · have hp2 : p = (i0, { j0 with startedAt := q.clock + 1 }) := by simpa using hp
          rw [hp2]
          exact Nat.succ_ne_zero _
  · unfold unstartedKeys
    rw [hjobs, List.filter_append, filter_unstarted_none hA]
    rw [List.filter_cons_of_neg (by simp), filter_unstarted_all hBtail]
    rfl
  · unfold unstartedKeys
    rw [hAB, List.filter_append, filter_unstarted_none hA]
    rw [List.filter_cons_of_pos (by simpa using hB (i0, j0) (List.mem_cons_self _ _)),
      filter_unstarted_all hBtail]
    rfl

end JobQueueModel

namespace JobQueueModel

/-- Along any restricted trace from a FIFO-invariant state, the dequeued
ids are exactly the first so-many entries of: pending unstarted ids
followed by ids of later submissions, in order. -/
theorem fifo_aux (t : String) (ops : List TOp) : ∀ q : Queue, FifoInv t q →
    outIds t q ops =
      (unstartedKeys q ++ subIds q.nextId ops).take (outIds t q ops).length := by
  induction ops with
  | nil =>
    intro q hinv
    rfl
  | cons op rest ih =>
    intro q hinv
    cases op with
    | sub a =>
      rw [outIds_sub t q a rest, fifo_sub_state t q a]
      have hinv2 := fifo_sub_inv hinv a
      have hlist : unstartedKeys q ++ subIds q.nextId (TOp.sub a :: rest) =
          unstartedKeys (⟨q.jobs ++ [(q.nextId, freshJob q t a [])],
            q.nextId + 1, q.clock + 1⟩ : Queue) ++
          subIds (⟨q.jobs ++ [(q.nextId, freshJob q t a [])],
            q.nextId + 1, q.clock + 1⟩ : Queue).nextId rest := by
        rw [fifo_sub_keys t q a]
        show unstartedKeys q ++ (q.nextId :: subIds (q.nextId + 1) rest) =
          (unstartedKeys q ++ [q.nextId]) ++ subIds (q.nextId + 1) rest
        rw [List.append_assoc]
        rfl
      rw [hlist]
      exact ih _ hinv2
    | take =>
      obtain ⟨A, B, hAB, hA, hB⟩ := hinv.split
      cases B with
      | nil =>
        have hcand : candidates q [t] = [] := by
          unfold candidates
          rw [hAB, List.filter_append, filter_cand_none hA]
          rfl
        have hdeq : dequeue q [t] = none := by
          unfold dequeue
          rw [hcand]
          rfl
        rw [outIds_take_none hdeq]
        have hkeys : unstartedKeys q = [] := by
          unfold unstartedKeys
          rw [hAB, List.filter_append, filter_unstarted_none hA]
          rfl
        show outIds t q rest =
          (unstartedKeys q ++ subIds q.nextId rest).take (outIds t q rest).length
        exact ih q hinv
      | cons c0 ctail =>
        rcases c0 with ⟨i0, j0⟩
        obtain ⟨hdeq, hinv2, hkeys2, hkeysq⟩ := fifo_take_step hinv hAB hA hB
        rw [outIds_take_some hdeq]
        rw [hkeysq]
        have hthis := ih (startClaim q i0 j0) hinv2
        rw [hkeys2] at hthis
        have hnid : (startClaim q i0 j0).nextId = q.nextId := rfl
        rw [hnid] at hthis
        show i0 :: outIds t (startClaim q i0 j0) rest =
          i0 :: (ctail.map Prod.fst ++ subIds q.nextId rest).take
            (outIds t (startClaim q i0 j0) rest).length
        rw [← hthis]

/-- Claim C3: along any trace of same-type no-dependency submissions and
dequeues accepting that type, the ids returned are exactly the first
so-many submitted ids in submission order (FIFO); and in general a
successful Dequeue returns the candidate with the least queuedAt among
dispatchable jobs of accepted types, ties broken by least id. -/
theorem dequeue_fifo_order :
    (∀ (t : String) (ops : List TOp),
      outIds t emptyQueue ops =
        (subIds 0 ops).take (outIds t emptyQueue ops).length) ∧
    (∀ (q : Queue) (ts : List String) (i : Nat) (ds : List Nat) (tt : String)
      (a : Bytes) (q1 : Queue), dequeue q ts = some (i, ds, tt, a, q1) →
      ∃ j : Job, (i, j) ∈ candidates q ts ∧
        ∀ p ∈ candidates q ts, j.queuedAt < p.2.queuedAt ∨
          (j.queuedAt = p.2.queuedAt ∧ i ≤ p.1)) := by
  constructor
  · intro t ops
    exact fifo_aux t ops emptyQueue (fifoInv_empty t)
  · intro q ts i ds tt a q1 h
    obtain ⟨j, hp, -, -, -, -⟩ := dequeue_ok_inv h
    refine ⟨j, pickMin_mem hp, ?_⟩
    intro p hpc
    have hmin := pickMin_min hp p hpc
    have hnot : ¬(p.2.queuedAt < j.queuedAt ∨ (p.2.queuedAt = j.queuedAt ∧ p.1 < i)) :=
      fun hc => (Bool.eq_false_iff.mp hmin) ((lexBefore_iff p (i, j)).mpr hc)
    omega

/-- Closed instance of claim C3: on a queue holding one fresh job of the
type, the dequeue returns it and it is minimal among candidates. -/
theorem dequeue_fifo_order_witness :
    ∃ j : Job,
      (0, j) ∈ candidates (run emptyQueue [Op.enq "t" (some [1]) []]) ["t"] ∧
      ∀ p ∈ candidates (run emptyQueue [Op.enq "t" (some [1]) []]) ["t"],
        j.queuedAt < p.2.queuedAt ∨ (j.queuedAt = p.2.queuedAt ∧ 0 ≤ p.1) :=
  dequeue_fifo_order.2 (run emptyQueue [Op.enq "t" (some [1]) []]) ["t"]
    0 [] "t" [1]
    (applyOp (run emptyQueue [Op.enq "t" (some [1]) []]) (Op.deq ["t"]))
    (by decide)

end JobQueueModel
